import Mathlib

set_option linter.unusedVariables false

/-!
Verification of the receive-side HTTP/1.1 parser of this repository
(`h11/_readers.py`) against its natural-language specification.

Bytes are modelled as `List Nat`; byte values are compared against ASCII
codes written as numerals (10 = LF, 13 = CR, 32 = SP, 9 = HTAB, 58 = colon).
Fallible code returns `Except ProtocolError`; a reader that needs more data
returns `none` in the event position.
-/

abbrev Bytes := List Nat

/-- Error kinds of `_util.py`, mirrored: `LocalProtocolError` is raised by the
readers themselves (see the strategy comment at the top of `_readers.py`),
`RemoteProtocolError` marks peer misbehaviour. -/
inductive ProtocolError where
  | LocalProtocolError (msg : String)
  | RemoteProtocolError (msg : String)
  deriving DecidableEq, Repr

deriving instance DecidableEq for Except

/-- Events produced by the readers of `_readers.py` (`_events.py` variants that
the readers construct). `Data` carries the `chunk_start` / `chunk_end` flags
(both default to `false` where the source omits them). -/
inductive Event where
  | Request (method target http_version : Bytes) (headers : List (Bytes × Bytes))
  | InformationalResponse (http_version : Bytes) (status_code : Nat) (reason : Bytes)
      (headers : List (Bytes × Bytes))
  | Response (http_version : Bytes) (status_code : Nat) (reason : Bytes)
      (headers : List (Bytes × Bytes))
  | Data (data : Bytes) (chunk_start chunk_end : Bool)
  | EndOfMessage (headers : List (Bytes × Bytes))
  deriving DecidableEq, Repr

/-! ## Receive buffer

`_receivebuffer.py` is not part of the provided sources; the buffer is
modelled from the spec (section 4.A), content-only: the scan-position
memoization is an optimisation the spec's invariants make unobservable.
The behaviour below also matches `h11/tests/test_receivebuffer.py`. -/

/-- Modelled from the spec: `maybe_extract_at_most(n)` of the receive buffer
(`_receivebuffer.py`, absent from src/) consumes up to `n` bytes, returning
`None` only when the buffer is empty. Returns the extracted prefix and the
remaining buffer content. -/
def maybe_extract_at_most (n : Nat) (b : Bytes) : Option (Bytes × Bytes) :=
  if b.isEmpty then none else some (b.take n, b.drop n)

/-- Split a byte string at its first LF, returning the line including the LF
together with the rest; `none` when no LF is present yet. -/
def splitLine : Bytes → Option (Bytes × Bytes)
  | [] => none
  | x :: xs =>
    if x = 10 then some ([10], xs)
    else
      match splitLine xs with
      | none => none
      | some (l, r) => some (x :: l, r)

/-- Modelled from the spec: `maybe_extract_next_line` of the receive buffer
(`_receivebuffer.py`, absent from src/) consumes up through the next LF,
inclusive (both CRLF and bare-LF terminated lines). -/
def maybe_extract_next_line (b : Bytes) : Option (Bytes × Bytes) :=
  splitLine b

/-- Strip one trailing `\r?\n` from a line. -/
def stripEol (l : Bytes) : Bytes :=
  let l1 := if l.getLast? = some 10 then l.dropLast else l
  if l1.getLast? = some 13 then l1.dropLast else l1

/-- Fuelled worker for `maybe_extract_lines`; fuel bounds the number of lines,
so `b.length` is always enough. -/
def extractLinesFuel : Nat → Bytes → Option (List Bytes × Bytes)
  | 0, _ => none
  | fuel + 1, b =>
    match splitLine b with
    | none => none
    | some (l, r) =>
      if stripEol l = [] then some ([], r)
      else
        match extractLinesFuel fuel r with
        | none => none
        | some (ls, rest) => some (stripEol l :: ls, rest)

/-- Modelled from the spec: `maybe_extract_lines` of the receive buffer
(`_receivebuffer.py`, absent from src/) consumes a complete header block up to
and including its terminating blank line, returning the header lines with
their trailing `\r?\n` stripped, or `none` while the terminator has not yet
arrived. Both CRLF and bare-LF delimiters are tolerated, as exercised by
`test_receivebuffer.py`. -/
def maybe_extract_lines (b : Bytes) : Option (List Bytes × Bytes) :=
  extractLinesFuel b.length b

/-- Modelled from the spec: the receive buffer extraction up to and including
a delimiter, used by `ChunkedReader.__call__` as
`buf.maybe_extract_until_next(b"\r\n")` (`_receivebuffer.py` is absent from
src/). It consumes up through the first occurrence of CRLF, returning `none`
while no CRLF is present. -/
def maybe_extract_until_crlf : Bytes → Option (Bytes × Bytes)
  | [] => none
  | x :: xs =>
    if x = 13 ∧ xs.head? = some 10 then some ([13, 10], xs.tail)
    else
      match maybe_extract_until_crlf xs with
      | none => none
      | some (p, r) => some (x :: p, r)

/-! ## Grammar validators

`_abnf.py` is not part of the provided sources; the four recognizers are
modelled from the spec (section 4.B): request-line
`method SP target SP HTTP-version`, status-line
`HTTP-version SP status-code [SP reason]`, header-field
`field-name ":" OWS field-value OWS`, chunk-header
`1*HEXDIG [";" chunk-ext] CRLF`. -/

def isDigit (c : Nat) : Bool := 48 ≤ c && c ≤ 57

def isTokenChar (c : Nat) : Bool :=
  (48 ≤ c && c ≤ 57) || (65 ≤ c && c ≤ 90) || (97 ≤ c && c ≤ 122) ||
    [33, 35, 36, 37, 38, 39, 42, 43, 45, 46, 94, 95, 96, 124, 126].contains c

def isVchar (c : Nat) : Bool := 33 ≤ c && c ≤ 126

/-- Field-value bytes: HTAB or any byte from SP upwards except DEL. -/
def isFieldValueChar (c : Nat) : Bool := c = 9 || (32 ≤ c && c ≠ 127)

def isReasonChar (c : Nat) : Bool := c = 9 || 32 ≤ c

def isHexDigit (c : Nat) : Bool :=
  (48 ≤ c && c ≤ 57) || (65 ≤ c && c ≤ 70) || (97 ≤ c && c ≤ 102)

def hexDigitVal (c : Nat) : Nat :=
  if 48 ≤ c && c ≤ 57 then c - 48
  else if 65 ≤ c && c ≤ 70 then c - 55
  else c - 87

def hexToNat (ds : Bytes) : Nat :=
  ds.foldl (fun acc c => acc * 16 + hexDigitVal c) 0

/-- Split a byte string at the first occurrence of `sep` (the separator is
consumed). -/
def splitFirst (sep : Nat) : Bytes → Option (Bytes × Bytes)
  | [] => none
  | x :: xs =>
    if x = sep then some ([], xs)
    else
      match splitFirst sep xs with
      | none => none
      | some (a, b) => some (x :: a, b)

/-- Modelled from the spec: the HTTP-version part of the request/status line
recognizers of `_abnf.py` (absent from src/); the captured `http_version` is
the `x.y` digits part. -/
def httpVersionParse : Bytes → Option Bytes
  | [72, 84, 84, 80, 47, d1, 46, d2] =>
    if isDigit d1 && isDigit d2 then some [d1, 46, d2] else none
  | _ => none

/-- Modelled from the spec: the request-line recognizer of `_abnf.py` (absent
from src/): `method SP target SP HTTP-version`. -/
def requestLineParse (l : Bytes) : Option (Bytes × Bytes × Bytes) :=
  match splitFirst 32 l with
  | none => none
  | some (m, r) =>
    match splitFirst 32 r with
    | none => none
    | some (t, v) =>
      if m ≠ [] && m.all isTokenChar && t ≠ [] && t.all isVchar then
        match httpVersionParse v with
        | none => none
        | some ver => some (m, t, ver)
      else none

/-- Modelled from the spec: the status-line recognizer of `_abnf.py` (absent
from src/): `HTTP-version SP status-code [SP reason]`, the reason phrase may
be absent. Returns the http version, status code and optional reason. -/
def statusLineParse : Bytes → Option (Bytes × Nat × Option Bytes)
  | 72 :: 84 :: 84 :: 80 :: 47 :: d1 :: 46 :: d2 :: 32 :: s1 :: s2 :: s3 :: rest =>
    if isDigit d1 && isDigit d2 && isDigit s1 && isDigit s2 && isDigit s3 then
      let code := (s1 - 48) * 100 + (s2 - 48) * 10 + (s3 - 48)
      match rest with
      | [] => some ([d1, 46, d2], code, none)
      | 32 :: reason =>
        if reason.all isReasonChar then some ([d1, 46, d2], code, some reason) else none
      | _ => none
    else none
  | _ => none

def stripOwsLeft (l : Bytes) : Bytes := l.dropWhile (fun c => c = 32 || c = 9)

def stripOwsRight (l : Bytes) : Bytes := (stripOwsLeft l.reverse).reverse

/-- Modelled from the spec: the header-field recognizer of `_abnf.py` (absent
from src/): `field-name ":" OWS field-value OWS`; the captures are the field
name and the OWS-stripped field value. -/
def headerFieldParse (l : Bytes) : Option (Bytes × Bytes) :=
  match splitFirst 58 l with
  | none => none
  | some (name, rest) =>
    if name ≠ [] && name.all isTokenChar then
      let v := stripOwsRight (stripOwsLeft rest)
      if v.all isFieldValueChar then some (name, v) else none
    else none

/-- Drop a trailing CRLF, or fail. -/
def dropSuffixCrlf (l : Bytes) : Option Bytes :=
  match l.reverse with
  | 10 :: 13 :: rev => some rev.reverse
  | _ => none

/-- Modelled from the spec: the chunk-header recognizer of `_abnf.py` (absent
from src/): `1*HEXDIG [";" chunk-ext] CRLF`, the chunk extension being
discarded; the input includes the terminating CRLF, as extracted by
`maybe_extract_until_next(b"\r\n")`. Returns the chunk size. -/
def chunkHeaderParse (l : Bytes) : Option Nat :=
  match dropSuffixCrlf l with
  | none => none
  | some core =>
    let ds := core.takeWhile isHexDigit
    let rest := core.dropWhile isHexDigit
    if ds = [] then none
    else
      match rest with
      | [] => some (hexToNat ds)
      | 59 :: ext => if ext.all (fun c => c ≠ 13 && c ≠ 10) then some (hexToNat ds) else none
      | _ => none

/-! ## Header-block decoding (`_obsolete_line_fold`, `_decode_header_lines`) -/

/-- The prefix match of `obs_fold_re = [ \t]+`: when the line starts with a
nonempty run of SP/HTAB, return what follows that run (`line[match.end():]`). -/
def obsFoldSplit : Bytes → Option Bytes
  | [] => none
  | c :: rest =>
    if c = 32 || c = 9 then some (rest.dropWhile (fun c2 => c2 = 32 || c2 = 9)) else none

/-- Worker for `_obsolete_line_fold`, carrying the `last` accumulator. -/
def obsFoldAux : Option Bytes → List Bytes → Except ProtocolError (List Bytes)
  | last, [] =>
    .ok (match last with | none => [] | some l => [l])
  | last, line :: rest =>
    match obsFoldSplit line with
    | some tail =>
      match last with
      | none => .error (.LocalProtocolError "continuation line at start of headers")
      | some l => obsFoldAux (some (l ++ 32 :: tail)) rest
    | none =>
      match last with
      | none => obsFoldAux (some line) rest
      | some l =>
        match obsFoldAux (some line) rest with
        | .error e => .error e
        | .ok ls => .ok (l :: ls)

/-- `_obsolete_line_fold` of `_readers.py`: a line starting with SP/HTAB is
joined to the previous line, the whole leading whitespace run replaced by a
single space; a fold before any line is a `LocalProtocolError`. -/
def _obsolete_line_fold (lines : List Bytes) : Except ProtocolError (List Bytes) :=
  obsFoldAux none lines

/-- Validate a list of folded lines against the header-field production,
yielding the capture pairs; failure raises `LocalProtocolError`, as `validate`
of `_util.py` does (see the strategy comment of `_readers.py`). -/
def validateHeaderLines : List Bytes → Except ProtocolError (List (Bytes × Bytes))
  | [] => .ok []
  | l :: ls =>
    match headerFieldParse l with
    | none => .error (.LocalProtocolError "illegal header line")
    | some p =>
      match validateHeaderLines ls with
      | .error e => .error e
      | .ok ps => .ok (p :: ps)

/-- `_decode_header_lines` of `_readers.py`: obsolete line folding followed by
header-field validation of each folded line. -/
def _decode_header_lines (lines : List Bytes) : Except ProtocolError (List (Bytes × Bytes)) :=
  match _obsolete_line_fold lines with
  | .error e => .error e
  | .ok folded => validateHeaderLines folded

def toLowerByte (c : Nat) : Nat := if 65 ≤ c && c ≤ 90 then c + 32 else c

/-- Modelled from the spec: header normalization performed by the event
constructors (`_events.py`, absent from src/): field names are lowercased and
surrounding whitespace is stripped from values. -/
def normalizeHeaders (ps : List (Bytes × Bytes)) : List (Bytes × Bytes) :=
  ps.map (fun p => (p.1.map toLowerByte, stripOwsRight (stripOwsLeft p.2)))

/-! ## Head readers -/

/-- The lines-level part of `maybe_read_from_IDLE_client`: validate line 0 as
a request line, decode the remaining lines as headers, build `Request`. -/
def readRequestHead : List Bytes → Except ProtocolError Event
  | [] => .error (.LocalProtocolError "no request line received")
  | l0 :: rest =>
    match requestLineParse l0 with
    | none => .error (.LocalProtocolError "illegal request line")
    | some (m, t, v) =>
      match _decode_header_lines rest with
      | .error e => .error e
      | .ok ps => .ok (.Request m t v (normalizeHeaders ps))

/-- The lines-level part of `maybe_read_from_SEND_RESPONSE_server`: validate
line 0 as a status line (tolerating a missing reason, defaulting it to empty),
decode the remaining lines as headers, and build `InformationalResponse` when
the status code is below 200, else `Response`. -/
def readResponseHead : List Bytes → Except ProtocolError Event
  | [] => .error (.LocalProtocolError "no response line received")
  | l0 :: rest =>
    match statusLineParse l0 with
    | none => .error (.LocalProtocolError "illegal status line")
    | some (v, code, reason) =>
      let r := reason.getD []
      match _decode_header_lines rest with
      | .error e => .error e
      | .ok ps =>
        if code < 200 then .ok (.InformationalResponse v code r (normalizeHeaders ps))
        else .ok (.Response v code r (normalizeHeaders ps))

/-- `maybe_read_from_IDLE_client` of `_readers.py`: extract a header block
and parse it as a request head; `none` while the block is incomplete. The
returned buffer is the content left after extraction. -/
def maybe_read_from_IDLE_client (buf : Bytes) :
    Except ProtocolError (Option (Event × Bytes)) :=
  match maybe_extract_lines buf with
  | none => .ok none
  | some (ls, r) =>
    match readRequestHead ls with
    | .error e => .error e
    | .ok ev => .ok (some (ev, r))

/-- `maybe_read_from_SEND_RESPONSE_server` of `_readers.py`: extract a header
block and parse it as a response head; `none` while the block is incomplete. -/
def maybe_read_from_SEND_RESPONSE_server (buf : Bytes) :
    Except ProtocolError (Option (Event × Bytes)) :=
  match maybe_extract_lines buf with
  | none => .ok none
  | some (ls, r) =>
    match readResponseHead ls with
    | .error e => .error e
    | .ok ev => .ok (some (ev, r))

/-! ## Body readers -/

/-- State of `ContentLengthReader`: the declared `_length` and the `_remaining`
byte count. -/
structure ContentLengthReader where
  length : Nat
  remaining : Nat
  deriving DecidableEq, Repr

/-- `ContentLengthReader.__init__(length)`. -/
def ContentLengthReader.init (n : Nat) : ContentLengthReader := ⟨n, n⟩

/-- `ContentLengthReader.__call__`: `EndOfMessage()` once `remaining == 0`,
otherwise extract up to `remaining` bytes and return them as `Data`
(decrementing `remaining`), or `None` when nothing can be extracted. -/
def ContentLengthReader.call (s : ContentLengthReader) (buf : Bytes) :
    Except ProtocolError (Option Event × ContentLengthReader × Bytes) :=
  if s.remaining = 0 then .ok (some (.EndOfMessage []), s, buf)
  else
    match maybe_extract_at_most s.remaining buf with
    | none => .ok (none, s, buf)
    | some (data, rest) =>
      .ok (some (.Data data false false), ⟨s.length, s.remaining - data.length⟩, rest)

/-- `ContentLengthReader.read_eof`: unconditionally raises
`RemoteProtocolError` (the message names the received/expected counts). -/
def ContentLengthReader.read_eof (s : ContentLengthReader) : Except ProtocolError Event :=
  .error (.RemoteProtocolError
    "peer closed connection without sending complete message body")

/-- State of `ChunkedReader`: `_bytes_in_chunk`, `_bytes_to_discard`, and
`_reading_trailer`. -/
structure ChunkedReader where
  bytes_in_chunk : Nat
  bytes_to_discard : Nat
  reading_trailer : Bool
  deriving DecidableEq, Repr

/-- `ChunkedReader.__init__()`. -/
def ChunkedReader.init : ChunkedReader := ⟨0, 0, false⟩

/-- The trailer branch of `ChunkedReader.__call__` (entered directly when
`_reading_trailer` is set, and through `return self(buf)` right after a
zero-size chunk header sets it): extract the trailing header block and emit
`EndOfMessage` with the decoded trailer headers. -/
def ChunkedReader.readTrailer (s : ChunkedReader) (buf : Bytes) :
    Except ProtocolError (Option Event × ChunkedReader × Bytes) :=
  match maybe_extract_lines buf with
  | none => .ok (none, s, buf)
  | some (ls, r) =>
    match _decode_header_lines ls with
    | .error e => .error e
    | .ok ps => .ok (some (.EndOfMessage (normalizeHeaders ps)), s, r)

/-- The chunk-data part of `ChunkedReader.__call__`: extract up to
`_bytes_in_chunk` bytes; on exhausting the chunk set `_bytes_to_discard = 2`
and mark `chunk_end`. `chunk_start` is passed in by the caller and is true
exactly when this same call consumed the chunk header. -/
def ChunkedReader.readData (s : ChunkedReader) (chunk_start : Bool) (buf : Bytes) :
    Except ProtocolError (Option Event × ChunkedReader × Bytes) :=
  match maybe_extract_at_most s.bytes_in_chunk buf with
  | none => .ok (none, s, buf)
  | some (data, rest) =>
    if s.bytes_in_chunk - data.length = 0 then
      .ok (some (.Data data chunk_start true),
        { s with bytes_in_chunk := 0, bytes_to_discard := 2 }, rest)
    else
      .ok (some (.Data data chunk_start false),
        { s with bytes_in_chunk := s.bytes_in_chunk - data.length }, rest)

/-- The refill part of `ChunkedReader.__call__` (reached with
`_bytes_to_discard == 0`): when `_bytes_in_chunk == 0`, extract the next
CRLF-terminated chunk header via `maybe_extract_until_next(b"\r\n")`, validate
it, and either switch to trailer mode (size 0) or start reading the new chunk
with `chunk_start = True`; otherwise continue the current chunk with
`chunk_start = False`. -/
def ChunkedReader.refill (s : ChunkedReader) (buf : Bytes) :
    Except ProtocolError (Option Event × ChunkedReader × Bytes) :=
  if s.bytes_in_chunk = 0 then
    match maybe_extract_until_crlf buf with
    | none => .ok (none, s, buf)
    | some (line, rest) =>
      match chunkHeaderParse line with
      | none => .error (.LocalProtocolError "illegal chunk header")
      | some size =>
        if size = 0 then ChunkedReader.readTrailer { s with reading_trailer := true } rest
        else ChunkedReader.readData { s with bytes_in_chunk := size } true rest
  else ChunkedReader.readData s false buf

/-- `ChunkedReader.__call__`: trailer mode, then the discard of the CRLF that
trails a finished chunk (falling through once fully discarded), then the
chunk-header/chunk-data logic of `ChunkedReader.refill`. -/
def ChunkedReader.call (s : ChunkedReader) (buf : Bytes) :
    Except ProtocolError (Option Event × ChunkedReader × Bytes) :=
  if s.reading_trailer then ChunkedReader.readTrailer s buf
  else if s.bytes_to_discard > 0 then
    match maybe_extract_at_most s.bytes_to_discard buf with
    | none => .ok (none, s, buf)
    | some (data, rest) =>
      if s.bytes_to_discard - data.length > 0 then
        .ok (none, { s with bytes_to_discard := s.bytes_to_discard - data.length }, rest)
      else ChunkedReader.refill { s with bytes_to_discard := 0 } rest
  else ChunkedReader.refill s buf

/-- `ChunkedReader.read_eof`: unconditionally raises `RemoteProtocolError`
(chunked streams self-terminate, EOF is never a valid terminator). -/
def ChunkedReader.read_eof (s : ChunkedReader) : Except ProtocolError Event :=
  .error (.RemoteProtocolError
    "peer closed connection without sending complete message body (incomplete chunked read)")

/-- `Http10Reader.__call__`: extract up to 999999999 bytes and return them as
`Data`, or `None` when the buffer is empty. -/
def Http10Reader.call (buf : Bytes) : Except ProtocolError (Option Event × Bytes) :=
  match maybe_extract_at_most 999999999 buf with
  | none => .ok (none, buf)
  | some (data, rest) => .ok (some (.Data data false false), rest)

/-- `Http10Reader.read_eof`: EOF is the natural terminator of the
read-until-close framing, returning `EndOfMessage()`. -/
def Http10Reader.read_eof : Except ProtocolError Event := .ok (.EndOfMessage [])

/-! ## Driving the readers

The connection driver (`_connection.py`) is absent from src/; the run
functions below are modelled from the spec (section 4.H): bytes are appended
to the receive buffer and the current reader is invoked repeatedly, each
invocation yielding one event or `NeedData`; a head reader is replaced after
its single head event, a body reader after `EndOfMessage`. -/

/-- The currently installed body reader together with its state. -/
inductive BodyState where
  | contentLength (s : ContentLengthReader)
  | chunked (s : ChunkedReader)
  | http10
  deriving DecidableEq, Repr

/-- One invocation of the current body reader. -/
def bodyStep : BodyState → Bytes → Except ProtocolError (Option Event × BodyState × Bytes)
  | .contentLength s, b =>
    match ContentLengthReader.call s b with
    | .error e => .error e
    | .ok (ev, s', b') => .ok (ev, .contentLength s', b')
  | .chunked s, b =>
    match ChunkedReader.call s b with
    | .error e => .error e
    | .ok (ev, s', b') => .ok (ev, .chunked s', b')
  | .http10, b =>
    match Http10Reader.call b with
    | .error e => .error e
    | .ok (ev, b') => .ok (ev, .http10, b')

/-- Result of draining the buffer: the reader wants more data, finished the
message with `EndOfMessage`, or raised. -/
inductive DrainOut where
  | more (st : BodyState) (buf : Bytes)
  | done (st : BodyState) (buf : Bytes)
  | fail (e : ProtocolError)
  deriving DecidableEq, Repr

/-- Invoke the body reader until it returns `NeedData`, finishes the message,
or raises; every continuing step consumes at least one byte, so a fuel of
`buf.length + 1` is always sufficient. -/
def drain : Nat → BodyState → Bytes → List Event × DrainOut
  | 0, st, b => ([], .more st b)
  | fuel + 1, st, b =>
    match bodyStep st b with
    | .error e => ([], .fail e)
    | .ok (none, st', b') => ([], .more st' b')
    | .ok (some (.EndOfMessage hs), st', b') => ([.EndOfMessage hs], .done st' b')
    | .ok (some ev, st', b') =>
      let r := drain fuel st' b'
      (ev :: r.1, r.2)

/-- Final shape of a fed body-reader run. In `done`, the leftover is the
unconsumed buffer content together with the never-appended chunks. -/
inductive FeedOut where
  | more (st : BodyState) (buf : Bytes)
  | done (leftover : Bytes)
  | fail (e : ProtocolError)
  deriving DecidableEq, Repr

/-- Drive a body reader over a sequence of appended chunks: drain the current
buffer, then append the chunks one at a time, draining after each append, and
stop at `EndOfMessage` or on an error. -/
def feedBody : BodyState → Bytes → List Bytes → List Event × FeedOut
  | st, buf, [] =>
    match drain (buf.length + 1) st buf with
    | (evs, .more st2 b2) => (evs, .more st2 b2)
    | (evs, .done _ b2) => (evs, .done b2)
    | (evs, .fail e) => (evs, .fail e)
  | st, buf, c :: cs =>
    match drain (buf.length + 1) st buf with
    | (evs, .more st2 b2) =>
      let r := feedBody st2 (b2 ++ c) cs
      (evs ++ r.1, r.2)
    | (evs, .done _ b2) => (evs, .done (b2 ++ (c :: cs).flatten))
    | (evs, .fail e) => (evs, .fail e)

def eventData : Event → Bytes
  | .Data d _ _ => d
  | _ => []

def isDataEvent : Event → Bool
  | .Data _ _ _ => true
  | _ => false

/-- Concatenation of the payloads of the `Data` events in a list. -/
def dataBytes (evs : List Event) : Bytes := (evs.map eventData).flatten

/-- The non-`Data` events of a list, in order. -/
def nonDataEvents (evs : List Event) : List Event := evs.filter (fun e => !isDataEvent e)

/-- Outcome of a run, independent of resumption details. -/
inductive AbsOut where
  | incomplete
  | complete (leftover : Bytes)
  | failed (e : ProtocolError)
  deriving DecidableEq, Repr

def absOut : FeedOut → AbsOut
  | .more _ _ => .incomplete
  | .done l => .complete l
  | .fail e => .failed e

/-- The Data-granularity-independent abstraction of a body-reader run: the
concatenation of `Data` payloads, the non-`Data` events, and the outcome. -/
def absRun (st : BodyState) (cs : List Bytes) : Bytes × List Event × AbsOut :=
  let r := feedBody st [] cs
  (dataBytes r.1, nonDataEvents r.1, absOut r.2)

/-- Final shape of a head-reader run. -/
inductive HeadOut where
  | more (buf : Bytes)
  | got (ev : Event) (leftover : Bytes)
  | fail (e : ProtocolError)
  deriving DecidableEq, Repr

/-- Drive a head reader (given by its lines-level part `H`) over a sequence
of appended chunks: after each append, try to extract a complete header
block; the first complete block yields the head event (or the parse error).
In `got`, the leftover is the unconsumed buffer content together with the
never-appended chunks. -/
def runHead (H : List Bytes → Except ProtocolError Event) : Bytes → List Bytes → HeadOut
  | buf, [] =>
    match maybe_extract_lines buf with
    | some (ls, r) =>
      match H ls with
      | .ok ev => .got ev r
      | .error e => .fail e
    | none => .more buf
  | buf, c :: cs =>
    match maybe_extract_lines buf with
    | some (ls, r) =>
      match H ls with
      | .ok ev => .got ev (r ++ (c :: cs).flatten)
      | .error e => .fail e
    | none => runHead H (buf ++ c) cs

/-! ## Denotations

For the chunking-invariance proofs each body reader gets a denotation mapping
its state and the complete future input to the abstraction of its run; the
run functions are then proved to compute these denotations for every
partition of the input into chunks. -/

def prependData (d : Bytes) (r : Bytes × List Event × AbsOut) : Bytes × List Event × AbsOut :=
  (d ++ r.1, r.2.1, r.2.2)

def prependEvents (evs : List Event) (r : Bytes × List Event × AbsOut) :
    Bytes × List Event × AbsOut :=
  (dataBytes evs ++ r.1, nonDataEvents evs ++ r.2.1, r.2.2)

/-- Denotation of `ContentLengthReader` on the complete future input. -/
def contentLengthR (s : ContentLengthReader) (f : Bytes) : Bytes × List Event × AbsOut :=
  if s.remaining = 0 then ([], [.EndOfMessage []], .complete f)
  else if f.length < s.remaining then (f, [], .incomplete)
  else (f.take s.remaining, [.EndOfMessage []], .complete (f.drop s.remaining))

/-- Denotation of `ChunkedReader` on the complete future input, fuelled; the
fuel only has to dominate `f.length`. -/
def chunkedRF : Nat → ChunkedReader → Bytes → Bytes × List Event × AbsOut
  | 0, _, _ => ([], [], .incomplete)
  | fuel + 1, s, f =>
    if s.reading_trailer then
      match maybe_extract_lines f with
      | none => ([], [], .incomplete)
      | some (ls, r) =>
        match _decode_header_lines ls with
        | .error e => ([], [], .failed e)
        | .ok ps => ([], [.EndOfMessage (normalizeHeaders ps)], .complete r)
    else if s.bytes_to_discard > 0 then
      if f.length < s.bytes_to_discard then ([], [], .incomplete)
      else chunkedRF fuel { s with bytes_to_discard := 0 } (f.drop s.bytes_to_discard)
    else if s.bytes_in_chunk = 0 then
      match maybe_extract_until_crlf f with
      | none => ([], [], .incomplete)
      | some (line, rest) =>
        match chunkHeaderParse line with
        | none => ([], [], .failed (.LocalProtocolError "illegal chunk header"))
        | some size =>
          if size = 0 then chunkedRF fuel { s with reading_trailer := true } rest
          else if rest.length < size then (rest, [], .incomplete)
          else prependData (rest.take size) (chunkedRF fuel ⟨0, 2, false⟩ (rest.drop size))
    else if f.length < s.bytes_in_chunk then (f, [], .incomplete)
    else
      prependData (f.take s.bytes_in_chunk)
        (chunkedRF fuel ⟨0, 2, false⟩ (f.drop s.bytes_in_chunk))

/-- Denotation of a body reader state on the complete future input. -/
def Rb : BodyState → Bytes → Bytes × List Event × AbsOut
  | .contentLength s, f => contentLengthR s f
  | .chunked s, f => chunkedRF f.length s f
  | .http10, f => (f, [], .incomplete)

/-- Denotation of a head reader on the complete future input. -/
def headDen (H : List Bytes → Except ProtocolError Event) (f : Bytes) : HeadOut :=
  match maybe_extract_lines f with
  | some (ls, r) =>
    match H ls with
    | .ok ev => .got ev r
    | .error e => .fail e
  | none => .more f

/-! ## The connection driver's error surfacing -/

/-- Modelled from the spec: failures detected while parsing bytes received
from the peer are surfaced by the connection driver (`_connection.py`, absent
from src/) as `RemoteProtocolError`, re-raising the `LocalProtocolError` the
readers throw for uniformity. -/
def surfaceReaderError : ProtocolError → ProtocolError
  | .LocalProtocolError msg => .RemoteProtocolError msg
  | .RemoteProtocolError msg => .RemoteProtocolError msg

/-- Modelled from the spec: invoking a reader on received bytes from inside
the connection driver (`_connection.py`, absent from src/): any error the
reader raises is surfaced as `RemoteProtocolError`. -/
def driveReader {α : Type} (r : Bytes → Except ProtocolError α) (b : Bytes) :
    Except ProtocolError α :=
  match r b with
  | .error e => .error (surfaceReaderError e)
  | .ok v => .ok v

/-- Build a header block out of line bodies, each terminated by `eol`, and
close it with a blank `eol` line. -/
def mkBlock (eol : Bytes) (ls : List Bytes) : Bytes := (ls.map (· ++ eol)).flatten ++ eol

/-- Whether CRLF occurs anywhere in a byte string. -/
def hasCrlf : Bytes → Bool
  | [] => false
  | x :: xs => (x = 13 && xs.head? = some 10) || hasCrlf xs

example :
    feedBody (.chunked ChunkedReader.init) []
      [[53, 13, 10, 104, 101, 108, 108, 111, 13, 10, 48, 13, 10, 13, 10]] =
    ([.Data [104, 101, 108, 108, 111] true true, .EndOfMessage []], .done []) := by decide

example :
    runHead readRequestHead []
      [[71, 69, 84, 32, 47, 32, 72, 84, 84, 80, 47, 49, 46, 49, 13, 10, 13, 10]] =
    .got (.Request [71, 69, 84] [47] [49, 46, 49] []) [] := by decide

example : chunkHeaderParse [53, 13, 10] = some 5 := by decide
example : chunkHeaderParse [48, 13, 10] = some 0 := by decide
example : chunkHeaderParse [53, 10] = none := by decide
example : maybe_extract_lines [88, 13, 10, 13, 10, 99] = some ([[88]], [99]) := by decide
example : maybe_extract_lines [13, 10, 99] = some ([], [99]) := by decide
example : maybe_extract_lines [88, 13, 10] = none := by decide
example : maybe_extract_until_crlf [53, 10, 65, 13, 10] = some ([53, 10, 65, 13, 10], []) := by
  decide

/-- Denotation of `ChunkedReader` on the complete future input (fuel hidden:
`f.length` always suffices). -/
def chunkedR (s : ChunkedReader) (f : Bytes) : Bytes × List Event × AbsOut :=
  chunkedRF f.length s f

/-- Relation between one reader invocation on buffer `b` and the reader's
denotation: the denotation `f` of the pre-state on any extension of the
buffer decomposes through the step's outcome, where `den` assigns each
post-state its denotation. A `none` step additionally certifies that the
reader is genuinely stuck (its denotation of the leftover alone is an empty
incomplete run), and a `Data` step consumes at least one byte. -/
def ResRel {α : Type} (den : α → Bytes → Bytes × List Event × AbsOut)
    (f : Bytes → Bytes × List Event × AbsOut) (b : Bytes)
    (res : Except ProtocolError (Option Event × α × Bytes)) : Prop :=
  match res with
  | .error e => ∀ c, f (b ++ c) = ([], [], .failed e)
  | .ok (none, s', b') =>
      (∀ c, f (b ++ c) = den s' (b' ++ c)) ∧ den s' b' = ([], [], .incomplete)
  | .ok (some (.Data d u v), s', b') =>
      d ≠ [] ∧ b'.length < b.length ∧ ∀ c, f (b ++ c) = prependData d (den s' (b' ++ c))
  | .ok (some (.EndOfMessage hs), s', b') =>
      ∀ c, f (b ++ c) = ([], [.EndOfMessage hs], .complete (b' ++ c))
  | .ok (some _, _, _) => False

/-- Relation between a full drain of the buffer `b` and the denotation `f`
of the starting state: the drained events prefix the denotation of the state
at which the drain stopped (`more`), or constitute the whole abstract run
(`done` / `fail`). -/
def DrainRel (f : Bytes → Bytes × List Event × AbsOut) (b : Bytes)
    (r : List Event × DrainOut) : Prop :=
  match r with
  | (evs, .more st' b') =>
      (∀ c, f (b ++ c) = prependEvents evs (Rb st' (b' ++ c))) ∧
        Rb st' b' = ([], [], .incomplete)
  | (evs, .done _ b') =>
      ∀ c, f (b ++ c) = (dataBytes evs, nonDataEvents evs, .complete (b' ++ c))
  | (evs, .fail e) =>
      ∀ c, f (b ++ c) = (dataBytes evs, nonDataEvents evs, .failed e)

/-- Relation between a fed run of a body reader and the denotation of its
initial state on the total input `g`. -/
def FeedRel (st : BodyState) (g : Bytes) (r : List Event × FeedOut) : Prop :=
  match r with
  | (evs, .more _ _) => Rb st g = (dataBytes evs, nonDataEvents evs, .incomplete)
  | (evs, .done l) => Rb st g = (dataBytes evs, nonDataEvents evs, .complete l)
  | (evs, .fail e) => Rb st g = (dataBytes evs, nonDataEvents evs, .failed e)

/-! # Lemmas about the buffer primitives -/

theorem splitLine_eq_append {b l r : Bytes} (h : splitLine b = some (l, r)) :
    b = l ++ r ∧ l ≠ [] := by
  induction b generalizing l r with
  | nil => simp [splitLine] at h
  | cons x xs ih =>
    rw [splitLine] at h
    by_cases hx : x = 10
    · rw [if_pos hx] at h
      obtain ⟨hl, hr⟩ := Prod.mk.injEq .. ▸ Option.some.injEq .. ▸ h
      subst hx
      constructor
      · rw [← hl, ← hr]; rfl
      · rw [← hl]; simp
    · rw [if_neg hx] at h
      cases hm : splitLine xs with
      | none => rw [hm] at h; cases h
      | some p =>
        obtain ⟨l', r'⟩ := p
        rw [hm] at h
        obtain ⟨hl, hr⟩ := Prod.mk.injEq .. ▸ Option.some.injEq .. ▸ h
        obtain ⟨hxs, hne⟩ := ih hm
        constructor
        · rw [← hl, ← hr, hxs]; rfl
        · rw [← hl]; simp

theorem splitLine_append {b l r : Bytes} (c : Bytes) (h : splitLine b = some (l, r)) :
    splitLine (b ++ c) = some (l, r ++ c) := by
  induction b generalizing l r with
  | nil => simp [splitLine] at h
  | cons x xs ih =>
    rw [splitLine] at h
    rw [List.cons_append, splitLine]
    by_cases hx : x = 10
    · rw [if_pos hx] at h ⊢
      obtain ⟨hl, hr⟩ := Prod.mk.injEq .. ▸ Option.some.injEq .. ▸ h
      rw [← hl, ← hr]
    · rw [if_neg hx] at h ⊢
      cases hm : splitLine xs with
      | none => rw [hm] at h; cases h
      | some p =>
        obtain ⟨l', r'⟩ := p
        rw [hm] at h
        obtain ⟨hl, hr⟩ := Prod.mk.injEq .. ▸ Option.some.injEq .. ▸ h
        rw [ih hm, ← hl, ← hr]

theorem splitLine_no10_append {l : Bytes} (h : 10 ∉ l) (r : Bytes) :
    splitLine (l ++ 10 :: r) = some (l ++ [10], r) := by
  induction l with
  | nil => simp [splitLine]
  | cons x xs ih =>
    have hx : x ≠ 10 := fun hc => h (hc ▸ List.mem_cons_self x xs)
    have hxs : 10 ∉ xs := fun hc => h (List.mem_cons_of_mem x hc)
    rw [List.cons_append, splitLine, if_neg hx, ih hxs]
    rfl

theorem extractLinesFuel_congr :
    ∀ f1 f2 : Nat, ∀ b : Bytes, b.length ≤ f1 → b.length ≤ f2 →
      extractLinesFuel f1 b = extractLinesFuel f2 b := by
  intro f1
  induction f1 with
  | zero =>
    intro f2 b h1 h2
    have hb : b = [] := List.length_eq_zero.mp (Nat.le_zero.mp h1)
    subst hb
    cases f2 with
    | zero => rfl
    | succ m => simp [extractLinesFuel, splitLine]
  | succ n ih =>
    intro f2 b h1 h2
    cases f2 with
    | zero =>
      have hb : b = [] := List.length_eq_zero.mp (Nat.le_zero.mp h2)
      subst hb
      simp [extractLinesFuel, splitLine]
    | succ m =>
      rw [extractLinesFuel, extractLinesFuel]
      cases hs : splitLine b with
      | none => rfl
      | some p =>
        obtain ⟨l, r⟩ := p
        obtain ⟨hb, hl⟩ := splitLine_eq_append hs
        have hlen : 1 ≤ l.length := by
          cases l with
          | nil => exact absurd rfl hl
          | cons y ys => simp
        have hr : r.length + 1 ≤ b.length := by
          rw [hb, List.length_append]; omega
        dsimp only
        by_cases hblank : stripEol l = []
        · rw [if_pos hblank, if_pos hblank]
        · rw [if_neg hblank, if_neg hblank]
          rw [ih m r (by omega) (by omega)]

theorem maybe_extract_lines_unfold (b : Bytes) :
    maybe_extract_lines b =
      (match splitLine b with
      | none => none
      | some (l, r) =>
        if stripEol l = [] then some ([], r)
        else
          match maybe_extract_lines r with
          | none => none
          | some (ls, rest) => some (stripEol l :: ls, rest)) := by
  cases b with
  | nil => simp [maybe_extract_lines, extractLinesFuel, splitLine]
  | cons x xs =>
    rw [maybe_extract_lines, show (x :: xs).length = xs.length + 1 from rfl, extractLinesFuel]
    cases hs : splitLine (x :: xs) with
    | none => rfl
    | some p =>
      obtain ⟨l, r⟩ := p
      obtain ⟨hb, hl⟩ := splitLine_eq_append hs
      have hlen : 1 ≤ l.length := by
        cases l with
        | nil => exact absurd rfl hl
        | cons y ys => simp
      have hr : r.length ≤ xs.length := by
        have := congrArg List.length hb
        simp only [List.length_cons, List.length_append] at this
        omega
      dsimp only
      by_cases hblank : stripEol l = []
      · rw [if_pos hblank, if_pos hblank]
      · rw [if_neg hblank, if_neg hblank,
          extractLinesFuel_congr xs.length r.length r hr le_rfl]
        rfl

theorem extractLines_append {b : Bytes} {ls : List Bytes} {r : Bytes} (c : Bytes)
    (h : maybe_extract_lines b = some (ls, r)) :
    maybe_extract_lines (b ++ c) = some (ls, r ++ c) := by
  suffices H : ∀ n : Nat, ∀ b2 ls2 r2, List.length b2 ≤ n →
      maybe_extract_lines b2 = some (ls2, r2) →
      maybe_extract_lines (b2 ++ c) = some (ls2, r2 ++ c) from H b.length b ls r le_rfl h
  intro n
  induction n with
  | zero =>
    intro b2 ls2 r2 h1 h2
    have hb : b2 = [] := List.length_eq_zero.mp (Nat.le_zero.mp h1)
    subst hb
    simp [maybe_extract_lines, extractLinesFuel] at h2
  | succ m ih =>
    intro b2 ls2 r2 h1 h2
    rw [maybe_extract_lines_unfold] at h2
    rw [maybe_extract_lines_unfold]
    cases hs : splitLine b2 with
    | none => rw [hs] at h2; cases h2
    | some p =>
      obtain ⟨l, r1⟩ := p
      rw [hs] at h2
      rw [splitLine_append c hs]
      obtain ⟨hb, hl⟩ := splitLine_eq_append hs
      have hlen : 1 ≤ l.length := by
        cases l with
        | nil => exact absurd rfl hl
        | cons y ys => simp
      have hr : r1.length ≤ m := by
        have := congrArg List.length hb
        simp only [List.length_append] at this
        omega
      dsimp only at h2 ⊢
      by_cases hblank : stripEol l = []
      · rw [if_pos hblank] at h2 ⊢
        obtain ⟨h3, h4⟩ := Prod.mk.injEq .. ▸ Option.some.injEq .. ▸ h2
        rw [← h3, ← h4]
      · rw [if_neg hblank] at h2 ⊢
        cases hm : maybe_extract_lines r1 with
        | none => rw [hm] at h2; cases h2
        | some q =>
          obtain ⟨ls1, rest1⟩ := q
          rw [hm] at h2
          rw [ih r1 ls1 rest1 hr hm]
          obtain ⟨h3, h4⟩ := Prod.mk.injEq .. ▸ Option.some.injEq .. ▸ h2
          rw [← h3, ← h4]

theorem stripEol_crlf_append (l : Bytes) : stripEol (l ++ [13, 10]) = l := by
  have e1 : l ++ [13, 10] = (l ++ [13]) ++ [10] := by simp
  rw [stripEol, e1]
  simp [List.getLast?_concat, List.dropLast_concat]

theorem stripEol_lf_append {l : Bytes} (h : l.getLast? ≠ some 13) :
    stripEol (l ++ [10]) = l := by
  rw [stripEol]
  simp [List.getLast?_concat, List.dropLast_concat, h]

theorem crlf_eq_append {b line r : Bytes} (h : maybe_extract_until_crlf b = some (line, r)) :
    b = line ++ r ∧ line ≠ [] := by
  induction b generalizing line r with
  | nil => simp [maybe_extract_until_crlf] at h
  | cons x xs ih =>
    rw [maybe_extract_until_crlf] at h
    by_cases hx : x = 13 ∧ xs.head? = some 10
    · rw [if_pos hx] at h
      obtain ⟨hl, hr⟩ := Prod.mk.injEq .. ▸ Option.some.injEq .. ▸ h
      cases xs with
      | nil => simp at hx
      | cons y ys =>
        have hy : y = 10 := by
          have := hx.2
          simp only [List.head?] at this
          exact Option.some.inj this
        constructor
        · rw [← hl, ← hr]
          simp [hx.1, hy, List.tail]
        · rw [← hl]; simp
    · rw [if_neg hx] at h
      cases hm : maybe_extract_until_crlf xs with
      | none => rw [hm] at h; cases h
      | some p =>
        obtain ⟨p1, r1⟩ := p
        rw [hm] at h
        obtain ⟨hl, hr⟩ := Prod.mk.injEq .. ▸ Option.some.injEq .. ▸ h
        obtain ⟨hxs, hne⟩ := ih hm
        constructor
        · rw [← hl, ← hr, hxs]; rfl
        · rw [← hl]; simp

theorem crlf_append {b line r : Bytes} (c : Bytes)
    (h : maybe_extract_until_crlf b = some (line, r)) :
    maybe_extract_until_crlf (b ++ c) = some (line, r ++ c) := by
  induction b generalizing line r with
  | nil => simp [maybe_extract_until_crlf] at h
  | cons x xs ih =>
    rw [maybe_extract_until_crlf] at h
    rw [List.cons_append, maybe_extract_until_crlf]
    by_cases hx : x = 13 ∧ xs.head? = some 10
    · rw [if_pos hx] at h
      cases xs with
      | nil => simp at hx
      | cons y ys =>
        have hx2 : x = 13 ∧ (y :: ys ++ c).head? = some 10 := by
          constructor
          · exact hx.1
          · have := hx.2
            simp only [List.head?] at this ⊢
            exact this
        rw [if_pos hx2]
        obtain ⟨hl, hr⟩ := Prod.mk.injEq .. ▸ Option.some.injEq .. ▸ h
        rw [← hl, ← hr]
        simp [List.tail]
    · rw [if_neg hx] at h
      have hx2 : ¬(x = 13 ∧ (xs ++ c).head? = some 10) := by
        intro hc
        apply hx
        refine ⟨hc.1, ?_⟩
        cases xs with
        | nil =>
          exfalso
          cases hm : maybe_extract_until_crlf ([] : Bytes) with
          | none => rw [hm] at h; cases h
          | some p => simp [maybe_extract_until_crlf] at hm
        | cons y ys =>
          have := hc.2
          simp only [List.cons_append, List.head?] at this ⊢
          exact this
      rw [if_neg hx2]
      cases hm : maybe_extract_until_crlf xs with
      | none => rw [hm] at h; cases h
      | some p =>
        obtain ⟨p1, r1⟩ := p
        rw [hm] at h
        rw [ih hm]
        obtain ⟨hl, hr⟩ := Prod.mk.injEq .. ▸ Option.some.injEq .. ▸ h
        rw [← hl, ← hr]

theorem crlf_none_of_hasCrlf_false {b : Bytes} (h : hasCrlf b = false) :
    maybe_extract_until_crlf b = none := by
  induction b with
  | nil => rfl
  | cons x xs ih =>
    rw [hasCrlf] at h
    rw [Bool.or_eq_false_iff] at h
    obtain ⟨h1, h2⟩ := h
    rw [maybe_extract_until_crlf, if_neg ?_, ih h2]
    intro hc
    rw [hc.1, hc.2] at h1
    simp at h1

theorem extract_blank_crlf (rest : Bytes) :
    maybe_extract_lines (13 :: 10 :: rest) = some ([], rest) := by
  rw [maybe_extract_lines_unfold]
  have hs : splitLine (13 :: 10 :: rest) = some ([13, 10], rest) := by
    rw [splitLine, if_neg (by decide), splitLine, if_pos rfl]
  rw [hs]
  rfl

theorem extract_blank_lf (rest : Bytes) :
    maybe_extract_lines (10 :: rest) = some ([], rest) := by
  rw [maybe_extract_lines_unfold]
  have hs : splitLine (10 :: rest) = some ([10], rest) := by
    rw [splitLine, if_pos rfl]
  rw [hs]
  rfl

/-! # Claim theorems -/

/-- C2 (amended): `ContentLengthReader.read_eof` raises `RemoteProtocolError`
whenever it is invoked, for every state of the reader — including states with
`remaining = 0`; the connection driver simply never invokes it after the
reader has already produced `EndOfMessage`. -/
theorem content_length_read_eof_always_raises (s : ContentLengthReader) :
    ContentLengthReader.read_eof s =
      .error (.RemoteProtocolError
        "peer closed connection without sending complete message body") :=
  rfl

/-- C2 counterexample: a `ContentLengthReader` whose `remaining` is `0` (all
`n` body bytes consumed, here with `n = 0`) still raises
`RemoteProtocolError` from its `on_eof` hook, contradicting the claim that
the hook does not raise when `remaining == 0`. -/
theorem content_length_read_eof_raises_at_zero :
    ContentLengthReader.read_eof ⟨0, 0⟩ =
      .error (.RemoteProtocolError
        "peer closed connection without sending complete message body") :=
  rfl

/-- C8: `ChunkedReader.read_eof` raises `RemoteProtocolError` from every
internal state (between chunks, mid-chunk, discarding, or reading the
trailer); EOF never terminates a chunked stream normally. -/
theorem chunked_read_eof_always_raises (s : ChunkedReader) :
    ChunkedReader.read_eof s =
      .error (.RemoteProtocolError
        "peer closed connection without sending complete message body (incomplete chunked read)") :=
  rfl

/-- C10: a complete but empty header block (its terminating blank line, CRLF
or bare LF, arriving with no preceding lines) makes the response head reader
raise `LocalProtocolError` "no response line received", mirroring the request
reader's "no request line received". -/
theorem empty_block_head_readers_error (rest : Bytes) :
    maybe_read_from_SEND_RESPONSE_server (13 :: 10 :: rest) =
      .error (.LocalProtocolError "no response line received") ∧
    maybe_read_from_SEND_RESPONSE_server (10 :: rest) =
      .error (.LocalProtocolError "no response line received") ∧
    maybe_read_from_IDLE_client (13 :: 10 :: rest) =
      .error (.LocalProtocolError "no request line received") := by
  refine ⟨?_, ?_, ?_⟩
  · rw [maybe_read_from_SEND_RESPONSE_server, extract_blank_crlf]
    rfl
  · rw [maybe_read_from_SEND_RESPONSE_server, extract_blank_lf]
    rfl
  · rw [maybe_read_from_IDLE_client, extract_blank_crlf]
    rfl

/-- C7 (amended): each call of `Http10Reader` with a non-empty buffer returns
a `Data` event with `min(available, 999999999)` bytes — hence all currently
available bytes whenever at most 999999999 are buffered — and returns `None`
only when the buffer is empty; its `on_eof` hook returns `EndOfMessage` with
empty headers rather than raising. -/
theorem http10_reader_spec :
    (∀ buf : Bytes, buf ≠ [] →
      Http10Reader.call buf =
        .ok (some (.Data (buf.take 999999999) false false), buf.drop 999999999)) ∧
    (∀ buf : Bytes, buf ≠ [] → buf.length ≤ 999999999 →
      Http10Reader.call buf = .ok (some (.Data buf false false), [])) ∧
    Http10Reader.call [] = .ok (none, []) ∧
    Http10Reader.read_eof = .ok (.EndOfMessage []) := by
  refine ⟨?_, ?_, rfl, rfl⟩
  · intro buf hne
    rw [Http10Reader.call, maybe_extract_at_most,
      if_neg (by simp [List.isEmpty_iff, hne])]
  · intro buf hne hlen
    rw [Http10Reader.call, maybe_extract_at_most,
      if_neg (by simp [List.isEmpty_iff, hne]),
      List.take_of_length_le hlen, List.drop_eq_nil_of_le hlen]

/-- C7 witness: instantiating the amended claim at the one-byte buffer. -/
theorem http10_reader_spec_witness :
    ([97] : Bytes) ≠ [] ∧
    Http10Reader.call [97] = .ok (some (.Data [97] false false), []) :=
  ⟨by decide, http10_reader_spec.2.1 [97] (by decide) (by decide)⟩

/-- C7 counterexample: with 10^9 bytes buffered, a single call returns only
999999999 of them, not all currently available bytes — the claimed "all
currently available bytes" fails on buffers longer than 999999999. -/
theorem http10_reader_caps_at_999999999 :
    Http10Reader.call (List.replicate 1000000000 97) =
      .ok (some (.Data (List.replicate 999999999 97) false false),
        List.replicate 1 97) := by
  have hne : (List.replicate 1000000000 97 : Bytes).isEmpty = false := by
    rw [List.isEmpty_eq_false_iff_exists_mem]
    exact ⟨97, List.mem_replicate.mpr ⟨by norm_num, rfl⟩⟩
  rw [Http10Reader.call, maybe_extract_at_most, hne]
  rw [if_neg (by simp)]
  rw [List.take_replicate, List.drop_replicate]
  have h1 : min 999999999 1000000000 = 999999999 := by norm_num
  have h2 : 1000000000 - 999999999 = 1 := by norm_num
  rw [h1, h2]

/-- C4 counterexample: the CRLF-terminated terminator chunk header "0\r\n"
(followed by the empty trailer) is accepted and yields `EndOfMessage`, but
the bare-LF variant "0\n\n" does not parse identically: the reader consumes
nothing and keeps waiting for a CRLF. -/
theorem bare_lf_chunk_header_not_accepted :
    ChunkedReader.call ChunkedReader.init [48, 13, 10, 13, 10] =
      .ok (some (.EndOfMessage []), ⟨0, 0, true⟩, []) ∧
    ChunkedReader.call ChunkedReader.init [48, 10, 10] =
      .ok (none, ChunkedReader.init, [48, 10, 10]) := by decide

/-- C6 counterexample: when the chunk header "5\r\n" arrives in an earlier
reader call than the chunk data "hello", the first (and only) `Data` event of
the chunk is emitted with `chunk_start = false`, contradicting the claim that
`chunk_start` is true exactly on the first `Data` event of its chunk. -/
theorem chunk_start_false_when_header_split :
    feedBody (.chunked ChunkedReader.init) [] [[53, 13, 10], [104, 101, 108, 108, 111]] =
      ([.Data [104, 101, 108, 108, 111] false true], .more (.chunked ⟨0, 2, false⟩) []) := by
  decide

theorem dropWhile_ws (wt rest : Bytes) (hws : ∀ c ∈ wt, c = 32 ∨ c = 9)
    (hrest : ∀ c ∈ rest.take 1, ¬(c = 32 ∨ c = 9)) :
    (wt ++ rest).dropWhile (fun c2 => c2 = 32 || c2 = 9) = rest := by
  induction wt with
  | nil =>
    cases rest with
    | nil => rfl
    | cons c t =>
      have hc := hrest c (by simp)
      have hc1 : c ≠ 32 := fun h => hc (Or.inl h)
      have hc2 : c ≠ 9 := fun h => hc (Or.inr h)
      rw [List.nil_append, List.dropWhile_cons, if_neg (by simp [hc1, hc2])]
  | cons w wt ih =>
    have hw := hws w (List.mem_cons_self w wt)
    rw [List.cons_append, List.dropWhile_cons,
      if_pos (by rcases hw with h | h <;> simp [h])]
    exact ih (fun c hc => hws c (List.mem_cons_of_mem w hc))

theorem obsFoldSplit_ws_append {ws rest : Bytes} (hne : ws ≠ [])
    (hws : ∀ c ∈ ws, c = 32 ∨ c = 9)
    (hrest : ∀ c ∈ rest.take 1, ¬(c = 32 ∨ c = 9)) :
    obsFoldSplit (ws ++ rest) = some rest := by
  cases ws with
  | nil => exact absurd rfl hne
  | cons w wt =>
    have hw : w = 32 ∨ w = 9 := hws w (List.mem_cons_self w wt)
    rw [List.cons_append, obsFoldSplit,
      if_pos (by rcases hw with h | h <;> simp [h])]
    rw [dropWhile_ws wt rest (fun c hc => hws c (List.mem_cons_of_mem w hc)) hrest]

/-- C9: obsolete line folding on the receive side: a line beginning with SP
or HTAB is joined to the previous line with the entire leading whitespace run
replaced by a single space before header-field validation; a folded line at
the start of a block raises `LocalProtocolError`; and the block
`"X: a\r\n\tb\r\n"` (lines `"X: a"` and `"\tb"`) decodes to the single
header `(x, a b)` after the event constructors' name normalization. -/
theorem obsolete_line_fold_spec :
    (∀ prev ws rest : Bytes,
      obsFoldSplit prev = none → ws ≠ [] → (∀ c ∈ ws, c = 32 ∨ c = 9) →
      (∀ c ∈ rest.take 1, ¬(c = 32 ∨ c = 9)) →
      _obsolete_line_fold [prev, ws ++ rest] = .ok [prev ++ 32 :: rest]) ∧
    (∀ (line : Bytes) (lines : List Bytes) (c : Nat),
      line.head? = some c → (c = 32 ∨ c = 9) →
      _obsolete_line_fold (line :: lines) =
        .error (.LocalProtocolError "continuation line at start of headers")) ∧
    (_decode_header_lines [[88, 58, 32, 97], [9, 98]] = .ok [([88], [97, 32, 98])] ∧
      normalizeHeaders [([88], [97, 32, 98])] = [([120], [97, 32, 98])]) := by
  refine ⟨?_, ?_, by decide, by decide⟩
  · intro prev ws rest hprev hne hws hrest
    rw [_obsolete_line_fold, obsFoldAux, hprev]
    rw [obsFoldAux, obsFoldSplit_ws_append hne hws hrest]
    rfl
  · intro line lines c hhead hc
    cases line with
    | nil => simp [List.head?] at hhead
    | cons x t =>
      have hx : x = c := by
        simp only [List.head?] at hhead
        exact Option.some.inj hhead
      subst hx
      rw [_obsolete_line_fold, obsFoldAux, obsFoldSplit,
        if_pos (by rcases hc with h | h <;> simp [h])]

/-- C9 witness: instantiating the fold rule at `"X: a"` + `"\tb"` and the
fold-at-start error at a block whose first line starts with a space. -/
theorem obsolete_line_fold_spec_witness :
    (obsFoldSplit [88, 58, 32, 97] = none ∧ ([9] : Bytes) ≠ [] ∧
      _obsolete_line_fold [[88, 58, 32, 97], [9] ++ [98]] = .ok [[88, 58, 32, 97, 32, 98]]) ∧
    _obsolete_line_fold [[32, 120]] =
      .error (.LocalProtocolError "continuation line at start of headers") :=
  ⟨⟨by decide, by decide,
    obsolete_line_fold_spec.1 [88, 58, 32, 97] [9] [98] (by decide) (by decide)
      (by decide) (by decide)⟩,
    obsolete_line_fold_spec.2.1 [32, 120] [] 32 (by decide) (by decide)⟩

theorem mkBlock_cons (eol l : Bytes) (ls : List Bytes) :
    mkBlock eol (l :: ls) = (l ++ eol) ++ mkBlock eol ls := by
  simp [mkBlock]

/-- C4 (amended): on the receive side, header lines and the header-block
terminator accept a bare LF and parse identically to CRLF (for any block of
lines containing no LF and not ending in CR, the CRLF-delimited and the
LF-delimited renderings extract the same lines); chunk-header lines are the
exception: they are extracted with `maybe_extract_until_next(b"\r\n")`, so a
buffer containing no CRLF — in particular one holding only a bare-LF
terminated chunk header — leaves the chunked reader waiting for more data. -/
theorem bare_lf_headers_crlf_chunk_headers :
    (∀ (ls : List Bytes) (tail : Bytes),
      (∀ l ∈ ls, l ≠ [] ∧ 10 ∉ l ∧ l.getLast? ≠ some 13) →
      maybe_extract_lines (mkBlock [13, 10] ls ++ tail) = some (ls, tail) ∧
      maybe_extract_lines (mkBlock [10] ls ++ tail) = some (ls, tail)) ∧
    (∀ buf : Bytes, hasCrlf buf = false →
      ChunkedReader.call ChunkedReader.init buf = .ok (none, ChunkedReader.init, buf)) := by
  constructor
  · intro ls tail h
    induction ls with
    | nil => exact ⟨extract_blank_crlf tail, extract_blank_lf tail⟩
    | cons l ls ih =>
      obtain ⟨hne, h10, h13⟩ := h l (List.mem_cons_self l ls)
      obtain ⟨ih1, ih2⟩ := ih (fun l' hl' => h l' (List.mem_cons_of_mem l hl'))
      constructor
      · rw [mkBlock_cons]
        have e : ((l ++ [13, 10]) ++ mkBlock [13, 10] ls) ++ tail =
            (l ++ [13]) ++ 10 :: (mkBlock [13, 10] ls ++ tail) := by simp
        rw [e, maybe_extract_lines_unfold,
          splitLine_no10_append (by simp [h10]) (mkBlock [13, 10] ls ++ tail)]
        have e2 : (l ++ [13]) ++ [10] = l ++ [13, 10] := by simp
        dsimp only
        rw [e2, stripEol_crlf_append, if_neg hne, ih1]
      · rw [mkBlock_cons]
        have e : ((l ++ [10]) ++ mkBlock [10] ls) ++ tail =
            l ++ 10 :: (mkBlock [10] ls ++ tail) := by simp
        rw [e, maybe_extract_lines_unfold,
          splitLine_no10_append h10 (mkBlock [10] ls ++ tail)]
        dsimp only
        rw [stripEol_lf_append h13, if_neg hne, ih2]
  · intro buf h
    rw [ChunkedReader.call, if_neg (by decide), if_neg (by decide),
      ChunkedReader.refill, if_pos (by decide), crlf_none_of_hasCrlf_false h]

/-- C4 witness: instantiating the amended claim at the block
`"A: x" / blank` in both renderings, and at the bare-LF chunk-header buffer
`"5\nhi"`. -/
theorem bare_lf_headers_crlf_chunk_headers_witness :
    ((∀ l ∈ [[65, 58, 32, 120]], l ≠ [] ∧ 10 ∉ l ∧ l.getLast? ≠ some 13) ∧
      maybe_extract_lines (mkBlock [13, 10] [[65, 58, 32, 120]] ++ [99]) =
        some ([[65, 58, 32, 120]], [99]) ∧
      maybe_extract_lines (mkBlock [10] [[65, 58, 32, 120]] ++ [99]) =
        some ([[65, 58, 32, 120]], [99])) ∧
    (hasCrlf [53, 10, 104, 105] = false ∧
      ChunkedReader.call ChunkedReader.init [53, 10, 104, 105] =
        .ok (none, ChunkedReader.init, [53, 10, 104, 105])) := by
  refine ⟨⟨by decide, ?_, ?_⟩, by decide, ?_⟩
  · exact (bare_lf_headers_crlf_chunk_headers.1 [[65, 58, 32, 120]] [99] (by decide)).1
  · exact (bare_lf_headers_crlf_chunk_headers.1 [[65, 58, 32, 120]] [99] (by decide)).2
  · exact bare_lf_headers_crlf_chunk_headers.2 [53, 10, 104, 105] (by decide)

/-- C3: an input whose request-line, status-line, header-field or
chunk-header fails its grammar validator while a reader parses it surfaces
from the connection driver as `RemoteProtocolError` (the readers themselves
raise `LocalProtocolError`, which the driver re-raises as remote for received
bytes). -/
theorem validator_failures_surface_as_remote :
    (∀ (buf l0 : Bytes) (rest : List Bytes) (r : Bytes),
      maybe_extract_lines buf = some (l0 :: rest, r) →
      requestLineParse l0 = none →
      driveReader maybe_read_from_IDLE_client buf =
        .error (.RemoteProtocolError "illegal request line")) ∧
    (∀ (buf l0 : Bytes) (rest : List Bytes) (r : Bytes),
      maybe_extract_lines buf = some (l0 :: rest, r) →
      statusLineParse l0 = none →
      driveReader maybe_read_from_SEND_RESPONSE_server buf =
        .error (.RemoteProtocolError "illegal status line")) ∧
    (∀ (buf l0 h1 r : Bytes),
      maybe_extract_lines buf = some ([l0, h1], r) →
      (∃ m, requestLineParse l0 = some m) →
      obsFoldSplit h1 = none →
      headerFieldParse h1 = none →
      driveReader maybe_read_from_IDLE_client buf =
        .error (.RemoteProtocolError "illegal header line")) ∧
    (∀ (buf line r : Bytes),
      maybe_extract_until_crlf buf = some (line, r) →
      chunkHeaderParse line = none →
      driveReader (fun b => ChunkedReader.call ChunkedReader.init b) buf =
        .error (.RemoteProtocolError "illegal chunk header")) := by
  refine ⟨?_, ?_, ?_, ?_⟩
  · intro buf l0 rest r hbuf hparse
    rw [driveReader, maybe_read_from_IDLE_client, hbuf]
    dsimp only
    rw [readRequestHead, hparse]
    rfl
  · intro buf l0 rest r hbuf hparse
    rw [driveReader, maybe_read_from_SEND_RESPONSE_server, hbuf]
    dsimp only
    rw [readResponseHead, hparse]
    rfl
  · intro buf l0 h1 r hbuf hm hfold hfield
    obtain ⟨m, hm⟩ := hm
    rw [driveReader, maybe_read_from_IDLE_client, hbuf]
    dsimp only
    rw [readRequestHead, hm]
    dsimp only
    rw [_decode_header_lines, _obsolete_line_fold, obsFoldAux, hfold]
    dsimp only
    rw [obsFoldAux]
    dsimp only
    rw [validateHeaderLines, hfield]
    rfl
  · intro buf line r hbuf hparse
    have hcall : ChunkedReader.call ChunkedReader.init buf =
        .error (.LocalProtocolError "illegal chunk header") := by
      rw [ChunkedReader.call, if_neg (by decide), if_neg (by decide),
        ChunkedReader.refill, if_pos (by decide), hbuf]
      dsimp only
      rw [hparse]
    simp only [driveReader, hcall]
    rfl

/-- C3 witness: a malformed request line, status line, header line and chunk
header, each surfacing as `RemoteProtocolError` from the driver. -/
theorem validator_failures_surface_as_remote_witness :
    (maybe_extract_lines [88, 88, 88, 13, 10, 13, 10] = some ([[88, 88, 88]], []) ∧
      requestLineParse [88, 88, 88] = none ∧
      driveReader maybe_read_from_IDLE_client [88, 88, 88, 13, 10, 13, 10] =
        .error (.RemoteProtocolError "illegal request line")) ∧
    (driveReader maybe_read_from_SEND_RESPONSE_server [88, 88, 88, 13, 10, 13, 10] =
      .error (.RemoteProtocolError "illegal status line")) ∧
    (driveReader maybe_read_from_IDLE_client
        [71, 69, 84, 32, 47, 32, 72, 84, 84, 80, 47, 49, 46, 49, 13, 10,
          64, 64, 64, 13, 10, 13, 10] =
      .error (.RemoteProtocolError "illegal header line")) ∧
    (driveReader (fun b => ChunkedReader.call ChunkedReader.init b) [90, 13, 10] =
      .error (.RemoteProtocolError "illegal chunk header")) := by
  refine ⟨⟨by decide, by decide, ?_⟩, ?_, ?_, ?_⟩
  · exact validator_failures_surface_as_remote.1 [88, 88, 88, 13, 10, 13, 10]
      [88, 88, 88] [] [] (by decide) (by decide)
  · exact validator_failures_surface_as_remote.2.1 [88, 88, 88, 13, 10, 13, 10]
      [88, 88, 88] [] [] (by decide) (by decide)
  · exact validator_failures_surface_as_remote.2.2.1
      [71, 69, 84, 32, 47, 32, 72, 84, 84, 80, 47, 49, 46, 49, 13, 10,
        64, 64, 64, 13, 10, 13, 10]
      [71, 69, 84, 32, 47, 32, 72, 84, 84, 80, 47, 49, 46, 49] [64, 64, 64] []
      (by decide) ⟨([71, 69, 84], [47], [49, 46, 49]), by decide⟩ (by decide) (by decide)
  · exact validator_failures_surface_as_remote.2.2.2 [90, 13, 10] [90, 13, 10] []
      (by decide) (by decide)

/-- C6 (amended): behaviour of `ChunkedReader`: a `Data` event carries
`chunk_start = true` exactly when the same reader call consumed the chunk
header (so the first `Data` of a chunk has `chunk_start = false` whenever the
header arrived in an earlier call with no body byte buffered);
`chunk_end = true` exactly when the read exhausts the chunk, and exhausting a
chunk sets `bytes_to_discard = 2` for the trailing CRLF; a chunk size of 0
switches the reader to trailer mode, ending in `EndOfMessage` carrying the
decoded trailer headers. -/
theorem chunked_reader_spec :
    (∀ (k : Nat) (buf : Bytes), 0 < k → k ≤ buf.length →
      ChunkedReader.call ⟨k, 0, false⟩ buf =
        .ok (some (.Data (buf.take k) false true), ⟨0, 2, false⟩, buf.drop k)) ∧
    (∀ (k : Nat) (buf : Bytes), 0 < k → buf ≠ [] → buf.length < k →
      ChunkedReader.call ⟨k, 0, false⟩ buf =
        .ok (some (.Data buf false false), ⟨k - buf.length, 0, false⟩, [])) ∧
    (∀ (buf line rest : Bytes) (size : Nat),
      maybe_extract_until_crlf buf = some (line, rest) →
      chunkHeaderParse line = some size → 0 < size → size ≤ rest.length →
      ChunkedReader.call ⟨0, 0, false⟩ buf =
        .ok (some (.Data (rest.take size) true true), ⟨0, 2, false⟩, rest.drop size)) ∧
    (∀ (buf line rest : Bytes) (size : Nat),
      maybe_extract_until_crlf buf = some (line, rest) →
      chunkHeaderParse line = some size → 0 < size → rest ≠ [] → rest.length < size →
      ChunkedReader.call ⟨0, 0, false⟩ buf =
        .ok (some (.Data rest true false), ⟨size - rest.length, 0, false⟩, [])) ∧
    (∀ (buf line : Bytes) (size : Nat),
      maybe_extract_until_crlf buf = some (line, []) →
      chunkHeaderParse line = some size → 0 < size →
      ChunkedReader.call ⟨0, 0, false⟩ buf = .ok (none, ⟨size, 0, false⟩, [])) ∧
    (∀ (buf line rest : Bytes),
      maybe_extract_until_crlf buf = some (line, rest) →
      chunkHeaderParse line = some 0 →
      maybe_extract_lines rest = none →
      ChunkedReader.call ⟨0, 0, false⟩ buf = .ok (none, ⟨0, 0, true⟩, rest)) ∧
    (∀ (buf line rest r : Bytes) (ls : List Bytes) (ps : List (Bytes × Bytes)),
      maybe_extract_until_crlf buf = some (line, rest) →
      chunkHeaderParse line = some 0 →
      maybe_extract_lines rest = some (ls, r) →
      _decode_header_lines ls = .ok ps →
      ChunkedReader.call ⟨0, 0, false⟩ buf =
        .ok (some (.EndOfMessage (normalizeHeaders ps)), ⟨0, 0, true⟩, r)) := by
  refine ⟨?_, ?_, ?_, ?_, ?_, ?_, ?_⟩
  · intro k buf hk hle
    have hne : ¬(buf.isEmpty = true) := by
      cases buf with
      | nil => simp at hle; omega
      | cons x xs => simp
    rw [ChunkedReader.call, if_neg (by simp), if_neg (by simp),
      ChunkedReader.refill, if_neg (by simpa using Nat.pos_iff_ne_zero.mp hk),
      ChunkedReader.readData, maybe_extract_at_most, if_neg hne]
    dsimp only
    rw [List.length_take, if_pos (by omega)]
  · intro k buf hk hne hlt
    have hne2 : ¬(buf.isEmpty = true) := by
      cases buf with
      | nil => exact absurd rfl hne
      | cons x xs => simp
    rw [ChunkedReader.call, if_neg (by simp), if_neg (by simp),
      ChunkedReader.refill, if_neg (by simpa using Nat.pos_iff_ne_zero.mp hk),
      ChunkedReader.readData, maybe_extract_at_most, if_neg hne2]
    dsimp only
    rw [List.length_take, if_neg (by omega),
      List.take_of_length_le (by omega), List.drop_eq_nil_of_le (by omega)]
    have : min k buf.length = buf.length := by omega
    rw [this]
  · intro buf line rest size hext hparse hpos hle
    have hne : ¬(rest.isEmpty = true) := by
      cases rest with
      | nil => simp at hle; omega
      | cons x xs => simp
    rw [ChunkedReader.call, if_neg (by decide), if_neg (by decide),
      ChunkedReader.refill, if_pos rfl, hext]
    dsimp only
    rw [hparse]
    dsimp only
    rw [if_neg (by omega), ChunkedReader.readData, maybe_extract_at_most, if_neg hne]
    dsimp only
    rw [List.length_take, if_pos (by omega)]
  · intro buf line rest size hext hparse hpos hne hlt
    have hne2 : ¬(rest.isEmpty = true) := by
      cases rest with
      | nil => exact absurd rfl hne
      | cons x xs => simp
    rw [ChunkedReader.call, if_neg (by decide), if_neg (by decide),
      ChunkedReader.refill, if_pos rfl, hext]
    dsimp only
    rw [hparse]
    dsimp only
    rw [if_neg (by omega), ChunkedReader.readData, maybe_extract_at_most, if_neg hne2]
    dsimp only
    rw [List.length_take, if_neg (by omega),
      List.take_of_length_le (by omega), List.drop_eq_nil_of_le (by omega)]
    have : min size rest.length = rest.length := by omega
    rw [this]
  · intro buf line size hext hparse hpos
    rw [ChunkedReader.call, if_neg (by decide), if_neg (by decide),
      ChunkedReader.refill, if_pos rfl, hext]
    dsimp only
    rw [hparse]
    dsimp only
    rw [if_neg (by omega)]
    rfl
  · intro buf line rest hext hparse hlines
    rw [ChunkedReader.call, if_neg (by decide), if_neg (by decide),
      ChunkedReader.refill, if_pos rfl, hext]
    dsimp only
    rw [hparse]
    dsimp only
    rw [if_pos rfl, ChunkedReader.readTrailer, hlines]
  · intro buf line rest r ls ps hext hparse hlines hdec
    rw [ChunkedReader.call, if_neg (by decide), if_neg (by decide),
      ChunkedReader.refill, if_pos rfl, hext]
    dsimp only
    rw [hparse]
    dsimp only
    rw [if_pos rfl, ChunkedReader.readTrailer, hlines]
    dsimp only
    rw [hdec]

/-- C6 witness: instantiating the amended claim: continuing a buffered chunk
(`chunk_start = false`, `chunk_end = true`, `bytes_to_discard := 2`), a chunk
header and its data in one call (`chunk_start = true`), and the zero-size
chunk switching to trailer mode and ending in `EndOfMessage`. -/
theorem chunked_reader_spec_witness :
    ChunkedReader.call ⟨5, 0, false⟩ [104, 101, 108, 108, 111] =
      .ok (some (.Data [104, 101, 108, 108, 111] false true), ⟨0, 2, false⟩, []) ∧
    ChunkedReader.call ⟨0, 0, false⟩ [53, 13, 10, 104, 101, 108, 108, 111] =
      .ok (some (.Data [104, 101, 108, 108, 111] true true), ⟨0, 2, false⟩, []) ∧
    ChunkedReader.call ⟨0, 0, false⟩ [48, 13, 10, 88, 58, 97, 13, 10, 13, 10] =
      .ok (some (.EndOfMessage [([120], [97])]), ⟨0, 0, true⟩, []) := by
  refine ⟨?_, ?_, ?_⟩
  · have h := chunked_reader_spec.1 5 [104, 101, 108, 108, 111] (by decide) (by decide)
    simpa using h
  · have h := chunked_reader_spec.2.2.1 [53, 13, 10, 104, 101, 108, 108, 111]
      [53, 13, 10] [104, 101, 108, 108, 111] 5 (by decide) (by decide) (by decide) (by decide)
    simpa using h
  · have h := chunked_reader_spec.2.2.2.2.2.2 [48, 13, 10, 88, 58, 97, 13, 10, 13, 10]
      [48, 13, 10] [88, 58, 97, 13, 10, 13, 10] [] [[88, 58, 97]] [([88], [97])]
      (by decide) (by decide) (by decide) (by decide)
    simpa using h

/-! # Lemmas about the chunked denotation -/

theorem chunkedRF_nil (fuel : Nat) (s : ChunkedReader) :
    chunkedRF fuel s [] = ([], [], .incomplete) := by
  cases fuel with
  | zero => rfl
  | succ n =>
    rw [chunkedRF]
    by_cases ht : s.reading_trailer = true
    · rw [if_pos ht]
      rfl
    · rw [if_neg ht]
      by_cases hd : s.bytes_to_discard > 0
      · rw [if_pos hd, if_pos (by simpa using hd)]
      · rw [if_neg hd]
        by_cases hk : s.bytes_in_chunk = 0
        · rw [if_pos hk]
          rfl
        · rw [if_neg hk, if_pos (by simp; omega)]

theorem chunkedRF_congr :
    ∀ f1 f2 : Nat, ∀ (s : ChunkedReader) (f : Bytes),
      f.length ≤ f1 → f.length ≤ f2 → chunkedRF f1 s f = chunkedRF f2 s f := by
  intro f1
  induction f1 with
  | zero =>
    intro f2 s f h1 h2
    have hf : f = [] := List.length_eq_zero.mp (Nat.le_zero.mp h1)
    subst hf
    rw [chunkedRF_nil, chunkedRF_nil]
  | succ n ih =>
    intro f2 s f h1 h2
    cases f2 with
    | zero =>
      have hf : f = [] := List.length_eq_zero.mp (Nat.le_zero.mp h2)
      subst hf
      rw [chunkedRF_nil, chunkedRF_nil]
    | succ m =>
      rw [chunkedRF, chunkedRF]
      by_cases ht : s.reading_trailer = true
      · rw [if_pos ht, if_pos ht]
      · rw [if_neg ht, if_neg ht]
        by_cases hd : s.bytes_to_discard > 0
        · rw [if_pos hd, if_pos hd]
          by_cases hlt : f.length < s.bytes_to_discard
          · rw [if_pos hlt, if_pos hlt]
          · rw [if_neg hlt, if_neg hlt]
            exact ih m _ _ (by simp [List.length_drop]; omega)
              (by simp [List.length_drop]; omega)
        · rw [if_neg hd, if_neg hd]
          by_cases hk : s.bytes_in_chunk = 0
          · rw [if_pos hk, if_pos hk]
            cases hcrlf : maybe_extract_until_crlf f with
            | none => rfl
            | some p =>
              obtain ⟨line, rest⟩ := p
              obtain ⟨hfeq, hlne⟩ := crlf_eq_append hcrlf
              have hlen : 1 ≤ line.length := by
                cases line with
                | nil => exact absurd rfl hlne
                | cons y ys => simp
              have hrest : rest.length + 1 ≤ f.length := by
                rw [hfeq, List.length_append]; omega
              dsimp only
              cases chunkHeaderParse line with
              | none => rfl
              | some size =>
                dsimp only
                by_cases hs0 : size = 0
                · rw [if_pos hs0, if_pos hs0]
                  exact ih m _ _ (by omega) (by omega)
                · rw [if_neg hs0, if_neg hs0]
                  by_cases hsl : rest.length < size
                  · rw [if_pos hsl, if_pos hsl]
                  · rw [if_neg hsl, if_neg hsl]
                    rw [ih m ⟨0, 2, false⟩ (rest.drop size)
                      (by simp [List.length_drop]; omega)
                      (by simp [List.length_drop]; omega)]
          · rw [if_neg hk, if_neg hk]
            by_cases hlt : f.length < s.bytes_in_chunk
            · rw [if_pos hlt, if_pos hlt]
            · rw [if_neg hlt, if_neg hlt]
              rw [ih m ⟨0, 2, false⟩ (f.drop s.bytes_in_chunk)
                (by simp [List.length_drop]; omega)
                (by simp [List.length_drop]; omega)]

theorem chunkedRF_eq_chunkedR {fuel : Nat} (s : ChunkedReader) (f : Bytes)
    (h : f.length ≤ fuel) : chunkedRF fuel s f = chunkedR s f :=
  chunkedRF_congr fuel f.length s f h le_rfl

theorem chunkedR_unfold (s : ChunkedReader) (f : Bytes) :
    chunkedR s f =
      (if s.reading_trailer then
        match maybe_extract_lines f with
        | none => ([], [], .incomplete)
        | some (ls, r) =>
          match _decode_header_lines ls with
          | .error e => ([], [], .failed e)
          | .ok ps => ([], [.EndOfMessage (normalizeHeaders ps)], .complete r)
      else if s.bytes_to_discard > 0 then
        if f.length < s.bytes_to_discard then ([], [], .incomplete)
        else chunkedR { s with bytes_to_discard := 0 } (f.drop s.bytes_to_discard)
      else if s.bytes_in_chunk = 0 then
        match maybe_extract_until_crlf f with
        | none => ([], [], .incomplete)
        | some (line, rest) =>
          match chunkHeaderParse line with
          | none => ([], [], .failed (.LocalProtocolError "illegal chunk header"))
          | some size =>
            if size = 0 then chunkedR { s with reading_trailer := true } rest
            else if rest.length < size then (rest, [], .incomplete)
            else prependData (rest.take size) (chunkedR ⟨0, 2, false⟩ (rest.drop size))
      else if f.length < s.bytes_in_chunk then (f, [], .incomplete)
      else
        prependData (f.take s.bytes_in_chunk)
          (chunkedR ⟨0, 2, false⟩ (f.drop s.bytes_in_chunk))) := by
  cases f with
  | nil =>
    rw [chunkedR, chunkedRF_nil]
    by_cases ht : s.reading_trailer = true
    · rw [if_pos ht]
      rfl
    · rw [if_neg ht]
      by_cases hd : s.bytes_to_discard > 0
      · rw [if_pos hd, if_pos (by simpa using hd)]
      · rw [if_neg hd]
        by_cases hk : s.bytes_in_chunk = 0
        · rw [if_pos hk]
          rfl
        · rw [if_neg hk, if_pos (by simp; omega)]
  | cons x xs =>
    rw [chunkedR, show (x :: xs).length = xs.length + 1 from rfl, chunkedRF]
    by_cases ht : s.reading_trailer = true
    · rw [if_pos ht, if_pos ht]
    · rw [if_neg ht, if_neg ht]
      by_cases hd : s.bytes_to_discard > 0
      · rw [if_pos hd, if_pos hd]
        simp only [List.length_cons]
        by_cases hlt : xs.length + 1 < s.bytes_to_discard
        · rw [if_pos hlt, if_pos hlt]
        · rw [if_neg hlt, if_neg hlt]
          exact chunkedRF_eq_chunkedR _ _
            (by simp only [List.length_drop, List.length_cons]; omega)
      · rw [if_neg hd, if_neg hd]
        by_cases hk : s.bytes_in_chunk = 0
        · rw [if_pos hk, if_pos hk]
          cases hcrlf : maybe_extract_until_crlf (x :: xs) with
          | none => rfl
          | some p =>
            obtain ⟨line, rest⟩ := p
            obtain ⟨hfeq, hlne⟩ := crlf_eq_append hcrlf
            have hlen : 1 ≤ line.length := by
              cases line with
              | nil => exact absurd rfl hlne
              | cons y ys => simp
            have hrest : rest.length ≤ xs.length := by
              have := congrArg List.length hfeq
              simp only [List.length_cons, List.length_append] at this
              omega
            dsimp only
            cases chunkHeaderParse line with
            | none => rfl
            | some size =>
              dsimp only
              by_cases hs0 : size = 0
              · rw [if_pos hs0, if_pos hs0]
                exact chunkedRF_eq_chunkedR _ _ (by omega)
              · rw [if_neg hs0, if_neg hs0]
                by_cases hsl : rest.length < size
                · rw [if_pos hsl, if_pos hsl]
                · rw [if_neg hsl, if_neg hsl]
                  rw [chunkedRF_eq_chunkedR ⟨0, 2, false⟩ (rest.drop size)
                    (by simp only [List.length_drop]; omega)]
        · rw [if_neg hk, if_neg hk]
          simp only [List.length_cons]
          by_cases hlt : xs.length + 1 < s.bytes_in_chunk
          · rw [if_pos hlt, if_pos hlt]
          · rw [if_neg hlt, if_neg hlt]
            rw [chunkedRF_eq_chunkedR ⟨0, 2, false⟩ ((x :: xs).drop s.bytes_in_chunk)
              (by simp only [List.length_drop, List.length_cons]; omega)]

theorem prependData_assoc (a d : Bytes) (r : Bytes × List Event × AbsOut) :
    prependData a (prependData d r) = prependData (a ++ d) r := by
  simp [prependData]

theorem ResRel.compose {α : Type} {den : α → Bytes → Bytes × List Event × AbsOut}
    {F G : Bytes → Bytes × List Event × AbsOut} {b bG : Bytes}
    {res : Except ProtocolError (Option Event × α × Bytes)}
    (hFG : ∀ c, F (b ++ c) = G (bG ++ c)) (hlen : bG.length ≤ b.length)
    (h : ResRel den G bG res) : ResRel den F b res := by
  cases res with
  | error e => exact fun c => (hFG c).trans (h c)
  | ok v =>
    obtain ⟨ev, s', b'⟩ := v
    cases ev with
    | none => exact ⟨fun c => (hFG c).trans (h.1 c), h.2⟩
    | some ev =>
      cases ev with
      | Data d u v => exact ⟨h.1, Nat.lt_of_lt_of_le h.2.1 hlen, fun c => (hFG c).trans (h.2.2 c)⟩
      | EndOfMessage hs => exact fun c => (hFG c).trans (h c)
      | Request m t ver hs => exact h
      | InformationalResponse ver code reason hs => exact h
      | Response ver code reason hs => exact h

theorem chunked_state_eq (s : ChunkedReader) (k d : Nat) (ht : s.reading_trailer = false) :
    ({ s with bytes_in_chunk := k, bytes_to_discard := d } : ChunkedReader) = ⟨k, d, false⟩ := by
  cases s with
  | mk a b c =>
    change c = false at ht
    simp [ht]

theorem chunked_state_eq2 (s : ChunkedReader) (k : Nat) (ht : s.reading_trailer = false)
    (hd : s.bytes_to_discard = 0) :
    ({ s with bytes_in_chunk := k } : ChunkedReader) = ⟨k, 0, false⟩ := by
  cases s with
  | mk a b c =>
    change c = false at ht
    change b = 0 at hd
    simp [ht, hd]

theorem chunkedR_nil (s : ChunkedReader) : chunkedR s [] = ([], [], .incomplete) := by
  rw [chunkedR]
  exact chunkedRF_nil 0 s

theorem readTrailer_resRel (s : ChunkedReader) (b : Bytes) (ht : s.reading_trailer = true) :
    ResRel chunkedR (chunkedR s) b (ChunkedReader.readTrailer s b) := by
  cases hm : maybe_extract_lines b with
  | none =>
    have hres : ChunkedReader.readTrailer s b = .ok (none, s, b) := by
      rw [ChunkedReader.readTrailer, hm]
    rw [hres]
    refine ⟨fun c => rfl, ?_⟩
    rw [chunkedR_unfold, if_pos ht, hm]
  | some p =>
    obtain ⟨ls, r⟩ := p
    cases hdec : _decode_header_lines ls with
    | error e =>
      have hres : ChunkedReader.readTrailer s b = .error e := by
        rw [ChunkedReader.readTrailer, hm]
        dsimp only
        rw [hdec]
      rw [hres]
      intro c
      rw [chunkedR_unfold, if_pos ht, extractLines_append c hm]
      dsimp only
      rw [hdec]
    | ok ps =>
      have hres : ChunkedReader.readTrailer s b =
          .ok (some (.EndOfMessage (normalizeHeaders ps)), s, r) := by
        rw [ChunkedReader.readTrailer, hm]
        dsimp only
        rw [hdec]
      rw [hres]
      intro c
      rw [chunkedR_unfold, if_pos ht, extractLines_append c hm]
      dsimp only
      rw [hdec]

theorem readData_resRel (s : ChunkedReader) (cstart : Bool) (b : Bytes)
    (ht : s.reading_trailer = false) (hd : s.bytes_to_discard = 0)
    (hk : 0 < s.bytes_in_chunk) :
    ResRel chunkedR (chunkedR s) b (ChunkedReader.readData s cstart b) := by
  by_cases hbe : b = []
  · subst hbe
    have hres : ChunkedReader.readData s cstart [] = .ok (none, s, []) := rfl
    rw [hres]
    exact ⟨fun c => rfl, chunkedR_nil s⟩
  · have hne : ¬(b.isEmpty = true) := by
      cases b with
      | nil => exact absurd rfl hbe
      | cons y ys => simp
    have hbpos : 0 < b.length := by
      cases b with
      | nil => exact absurd rfl hbe
      | cons y ys => simp
    have hres0 : maybe_extract_at_most s.bytes_in_chunk b =
        some (b.take s.bytes_in_chunk, b.drop s.bytes_in_chunk) := by
      rw [maybe_extract_at_most, if_neg hne]
    by_cases hkb : s.bytes_in_chunk ≤ b.length
    · have hres : ChunkedReader.readData s cstart b =
          .ok (some (.Data (b.take s.bytes_in_chunk) cstart true),
            { s with bytes_in_chunk := 0, bytes_to_discard := 2 },
            b.drop s.bytes_in_chunk) := by
        rw [ChunkedReader.readData, hres0]
        dsimp only
        rw [List.length_take, if_pos (by omega)]
      rw [hres]
      refine ⟨?_, ?_, ?_⟩
      · rw [Ne, List.take_eq_nil_iff]
        push_neg
        exact ⟨by omega, hbe⟩
      · rw [List.length_drop]
        omega
      · intro c
        rw [chunked_state_eq s 0 2 ht]
        rw [chunkedR_unfold s (b ++ c), if_neg (by rw [ht]; simp),
          if_neg (by rw [hd]; simp), if_neg (by omega),
          if_neg (by rw [List.length_append]; omega),
          List.take_append_of_le_length hkb, List.drop_append_of_le_length hkb]
    · have hlt : b.length < s.bytes_in_chunk := by omega
      have hres : ChunkedReader.readData s cstart b =
          .ok (some (.Data b cstart false),
            { s with bytes_in_chunk := s.bytes_in_chunk - b.length }, []) := by
        rw [ChunkedReader.readData, hres0]
        dsimp only
        rw [List.take_of_length_le (by omega), List.drop_eq_nil_of_le (by omega),
          if_neg (by omega)]
      rw [hres]
      refine ⟨hbe, by simpa using hbpos, ?_⟩
      intro c
      rw [chunked_state_eq2 s (s.bytes_in_chunk - b.length) ht hd, List.nil_append]
      rw [chunkedR_unfold s (b ++ c), if_neg (by rw [ht]; simp),
        if_neg (by rw [hd]; simp), if_neg (by omega)]
      rw [chunkedR_unfold ⟨s.bytes_in_chunk - b.length, 0, false⟩ c]
      dsimp only
      rw [if_neg (show ¬((false : Bool) = true) by simp),
        if_neg (show ¬((0 : Nat) > 0) by simp),
        if_neg (show ¬(s.bytes_in_chunk - b.length = 0) by omega)]
      by_cases hcl : c.length < s.bytes_in_chunk - b.length
      · rw [if_pos (show (b ++ c).length < s.bytes_in_chunk by
            rw [List.length_append]; omega),
          if_pos hcl]
        simp [prependData]
      · rw [if_neg (show ¬((b ++ c).length < s.bytes_in_chunk) by
            rw [List.length_append]; omega),
          if_neg hcl]
        rw [List.take_append_eq_append_take, List.drop_append_eq_append_drop,
          List.take_of_length_le (show b.length ≤ s.bytes_in_chunk by omega),
          List.drop_eq_nil_of_le (show b.length ≤ s.bytes_in_chunk by omega),
          List.nil_append, prependData_assoc]

theorem refill_resRel (s : ChunkedReader) (b : Bytes)
    (ht : s.reading_trailer = false) (hd : s.bytes_to_discard = 0) :
    ResRel chunkedR (chunkedR s) b (ChunkedReader.refill s b) := by
  by_cases hk : s.bytes_in_chunk = 0
  · cases hcrlf : maybe_extract_until_crlf b with
    | none =>
      have hres : ChunkedReader.refill s b = .ok (none, s, b) := by
        rw [ChunkedReader.refill, if_pos hk, hcrlf]
      rw [hres]
      refine ⟨fun c => rfl, ?_⟩
      rw [chunkedR_unfold, if_neg (by rw [ht]; simp), if_neg (by rw [hd]; simp),
        if_pos hk, hcrlf]
    | some p =>
      obtain ⟨line, rest⟩ := p
      obtain ⟨hbeq, hlne⟩ := crlf_eq_append hcrlf
      have hlen1 : 1 ≤ line.length := by
        cases line with
        | nil => exact absurd rfl hlne
        | cons y ys => simp
      have hrest : rest.length < b.length := by
        have := congrArg List.length hbeq
        rw [List.length_append] at this
        omega
      cases hparse : chunkHeaderParse line with
      | none =>
        have hres : ChunkedReader.refill s b =
            .error (.LocalProtocolError "illegal chunk header") := by
          rw [ChunkedReader.refill, if_pos hk, hcrlf]
          dsimp only
          rw [hparse]
        rw [hres]
        intro c
        rw [chunkedR_unfold, if_neg (by rw [ht]; simp), if_neg (by rw [hd]; simp),
          if_pos hk, crlf_append c hcrlf]
        dsimp only
        rw [hparse]
      | some size =>
        by_cases hs0 : size = 0
        · subst hs0
          have hres : ChunkedReader.refill s b =
              ChunkedReader.readTrailer { s with reading_trailer := true } rest := by
            rw [ChunkedReader.refill, if_pos hk, hcrlf]
            dsimp only
            rw [hparse]
            dsimp only
            rw [if_pos rfl]
          rw [hres]
          refine ResRel.compose ?_ (Nat.le_of_lt hrest)
            (readTrailer_resRel { s with reading_trailer := true } rest rfl)
          intro c
          rw [chunkedR_unfold s (b ++ c), if_neg (by rw [ht]; simp),
            if_neg (by rw [hd]; simp), if_pos hk, crlf_append c hcrlf]
          dsimp only
          rw [hparse]
          dsimp only
          rw [if_pos rfl]
        · have hres : ChunkedReader.refill s b =
              ChunkedReader.readData ⟨size, 0, false⟩ true rest := by
            rw [ChunkedReader.refill, if_pos hk, hcrlf]
            dsimp only
            rw [hparse]
            dsimp only
            rw [if_neg hs0, chunked_state_eq2 s size ht hd]
          rw [hres]
          refine ResRel.compose ?_ (Nat.le_of_lt hrest)
            (readData_resRel ⟨size, 0, false⟩ true rest rfl rfl (by show 0 < size; omega))
          intro c
          rw [chunkedR_unfold s (b ++ c), if_neg (by rw [ht]; simp),
            if_neg (by rw [hd]; simp), if_pos hk, crlf_append c hcrlf]
          dsimp only
          rw [hparse]
          dsimp only
          rw [if_neg hs0]
          rw [chunkedR_unfold ⟨size, 0, false⟩ (rest ++ c)]
          dsimp only
          rw [if_neg (show ¬((false : Bool) = true) by simp),
            if_neg (show ¬((0 : Nat) > 0) by simp),
            if_neg (show ¬(size = 0) from hs0)]
  · have hres : ChunkedReader.refill s b = ChunkedReader.readData s false b := by
      rw [ChunkedReader.refill, if_neg hk]
    rw [hres]
    exact readData_resRel s false b ht hd (by omega)

theorem chunkedCall_resRel (s : ChunkedReader) (b : Bytes) :
    ResRel chunkedR (chunkedR s) b (ChunkedReader.call s b) := by
  by_cases ht : s.reading_trailer = true
  · have hres : ChunkedReader.call s b = ChunkedReader.readTrailer s b := by
      rw [ChunkedReader.call, if_pos ht]
    rw [hres]
    exact readTrailer_resRel s b ht
  · have htf : s.reading_trailer = false := by
      revert ht
      cases s.reading_trailer <;> simp
    by_cases hd : s.bytes_to_discard > 0
    · by_cases hbe : b = []
      · subst hbe
        have hres : ChunkedReader.call s [] = .ok (none, s, []) := by
          rw [ChunkedReader.call, if_neg ht, if_pos hd]
          rfl
        rw [hres]
        exact ⟨fun c => rfl, chunkedR_nil s⟩
      · have hne : ¬(b.isEmpty = true) := by
          cases b with
          | nil => exact absurd rfl hbe
          | cons y ys => simp
        have hbpos : 0 < b.length := by
          cases b with
          | nil => exact absurd rfl hbe
          | cons y ys => simp
        have hextract : maybe_extract_at_most s.bytes_to_discard b =
            some (b.take s.bytes_to_discard, b.drop s.bytes_to_discard) := by
          rw [maybe_extract_at_most, if_neg hne]
        by_cases hdb : b.length < s.bytes_to_discard
        · have hres : ChunkedReader.call s b =
              .ok (none, { s with bytes_to_discard := s.bytes_to_discard - b.length }, []) := by
            rw [ChunkedReader.call, if_neg ht, if_pos hd, hextract]
            dsimp only
            rw [List.length_take,
              show min s.bytes_to_discard b.length = b.length by omega,
              if_pos (by omega), List.drop_eq_nil_of_le (by omega)]
          rw [hres]
          refine ⟨?_, ?_⟩
          · intro c
            rw [List.nil_append]
            rw [chunkedR_unfold s (b ++ c), if_neg (by rw [htf]; simp), if_pos hd]
            rw [chunkedR_unfold { s with bytes_to_discard := s.bytes_to_discard - b.length } c]
            rw [if_neg (show ¬(({ s with bytes_to_discard := s.bytes_to_discard - b.length } :
                ChunkedReader).reading_trailer = true) from by rw [show ({ s with
                bytes_to_discard := s.bytes_to_discard - b.length } :
                ChunkedReader).reading_trailer = s.reading_trailer from rfl, htf]; simp)]
            rw [if_pos (show ({ s with bytes_to_discard := s.bytes_to_discard - b.length } :
                ChunkedReader).bytes_to_discard > 0 from by
                  show s.bytes_to_discard - b.length > 0
                  omega)]
            by_cases hcl : c.length < s.bytes_to_discard - b.length
            · rw [if_pos (by rw [List.length_append]; omega), if_pos (by exact hcl)]
            · rw [if_neg (by rw [List.length_append]; omega), if_neg (by exact hcl)]
              rw [List.drop_append_eq_append_drop,
                List.drop_eq_nil_of_le (by omega), List.nil_append]
          · rw [chunkedR_nil]
        · have hres : ChunkedReader.call s b =
              ChunkedReader.refill { s with bytes_to_discard := 0 }
                (b.drop s.bytes_to_discard) := by
            rw [ChunkedReader.call, if_neg ht, if_pos hd, hextract]
            dsimp only
            rw [List.length_take,
              show min s.bytes_to_discard b.length = s.bytes_to_discard by omega,
              if_neg (by omega)]
          rw [hres]
          refine ResRel.compose ?_ (by rw [List.length_drop]; omega)
            (refill_resRel { s with bytes_to_discard := 0 } (b.drop s.bytes_to_discard)
              htf rfl)
          intro c
          rw [chunkedR_unfold s (b ++ c), if_neg (by rw [htf]; simp), if_pos hd,
            if_neg (by rw [List.length_append]; omega),
            List.drop_append_of_le_length (by omega)]
    · have hd0 : s.bytes_to_discard = 0 := by omega
      have hres : ChunkedReader.call s b = ChunkedReader.refill s b := by
        rw [ChunkedReader.call, if_neg ht, if_neg hd]
      rw [hres]
      exact refill_resRel s b htf hd0

theorem clCall_resRel (s : ContentLengthReader) (b : Bytes) :
    ResRel contentLengthR (contentLengthR s) b (ContentLengthReader.call s b) := by
  by_cases hr : s.remaining = 0
  · have hres : ContentLengthReader.call s b = .ok (some (.EndOfMessage []), s, b) := by
      rw [ContentLengthReader.call, if_pos hr]
    rw [hres]
    intro c
    rw [contentLengthR, if_pos hr]
  · by_cases hbe : b = []
    · subst hbe
      have hres : ContentLengthReader.call s [] = .ok (none, s, []) := by
        rw [ContentLengthReader.call, if_neg hr]
        rfl
      rw [hres]
      refine ⟨fun c => rfl, ?_⟩
      rw [contentLengthR, if_neg hr, if_pos (by simp; omega)]
    · have hne : ¬(b.isEmpty = true) := by
        cases b with
        | nil => exact absurd rfl hbe
        | cons y ys => simp
      have hbpos : 0 < b.length := by
        cases b with
        | nil => exact absurd rfl hbe
        | cons y ys => simp
      have hextract : maybe_extract_at_most s.remaining b =
          some (b.take s.remaining, b.drop s.remaining) := by
        rw [maybe_extract_at_most, if_neg hne]
      have hres : ContentLengthReader.call s b =
          .ok (some (.Data (b.take s.remaining) false false),
            ⟨s.length, s.remaining - (b.take s.remaining).length⟩, b.drop s.remaining) := by
        rw [ContentLengthReader.call, if_neg hr, hextract]
      rw [hres]
      refine ⟨?_, ?_, ?_⟩
      · rw [Ne, List.take_eq_nil_iff]
        push_neg
        exact ⟨by omega, hbe⟩
      · rw [List.length_drop]
        omega
      · intro c
        rw [List.length_take]
        by_cases hrb : s.remaining ≤ b.length
        · rw [show min s.remaining b.length = s.remaining by omega]
          simp only [contentLengthR]
          rw [if_neg hr,
            if_neg (show ¬((b ++ c).length < s.remaining) by rw [List.length_append]; omega),
            List.take_append_of_le_length hrb, List.drop_append_of_le_length hrb,
            if_pos (show s.remaining - s.remaining = 0 by omega)]
          simp [prependData]
        · rw [show min s.remaining b.length = b.length by omega,
            List.take_of_length_le (by omega), List.drop_eq_nil_of_le (by omega),
            List.nil_append]
          simp only [contentLengthR]
          rw [if_neg hr, if_neg (show ¬(s.remaining - b.length = 0) by omega)]
          by_cases hcl : c.length < s.remaining - b.length
          · rw [if_pos (show (b ++ c).length < s.remaining by
                rw [List.length_append]; omega),
              if_pos hcl]
            simp [prependData]
          · rw [if_neg (show ¬((b ++ c).length < s.remaining) by
                rw [List.length_append]; omega),
              if_neg hcl]
            rw [List.take_append_eq_append_take, List.drop_append_eq_append_drop,
              List.take_of_length_le (show b.length ≤ s.remaining by omega),
              List.drop_eq_nil_of_le (show b.length ≤ s.remaining by omega),
              List.nil_append]
            rfl

theorem bodyStep_resRel (st : BodyState) (b : Bytes) :
    ResRel Rb (Rb st) b (bodyStep st b) := by
  cases st with
  | contentLength s =>
    have h := clCall_resRel s b
    cases hc : ContentLengthReader.call s b with
    | error e =>
      have hb : bodyStep (.contentLength s) b = .error e := by
        rw [bodyStep, hc]
      rw [hb]
      rw [hc] at h
      exact h
    | ok v =>
      obtain ⟨ev, s', b'⟩ := v
      have hb : bodyStep (.contentLength s) b = .ok (ev, .contentLength s', b') := by
        rw [bodyStep, hc]
      rw [hb]
      rw [hc] at h
      cases ev with
      | none => exact h
      | some e =>
        cases e with
        | Data d u v => exact h
        | EndOfMessage hs => exact h
        | Request m t ver hs => exact h
        | InformationalResponse ver code reason hs => exact h
        | Response ver code reason hs => exact h
  | chunked s =>
    have h := chunkedCall_resRel s b
    cases hc : ChunkedReader.call s b with
    | error e =>
      have hb : bodyStep (.chunked s) b = .error e := by
        rw [bodyStep, hc]
      rw [hb]
      rw [hc] at h
      exact h
    | ok v =>
      obtain ⟨ev, s', b'⟩ := v
      have hb : bodyStep (.chunked s) b = .ok (ev, .chunked s', b') := by
        rw [bodyStep, hc]
      rw [hb]
      rw [hc] at h
      cases ev with
      | none => exact h
      | some e =>
        cases e with
        | Data d u v => exact h
        | EndOfMessage hs => exact h
        | Request m t ver hs => exact h
        | InformationalResponse ver code reason hs => exact h
        | Response ver code reason hs => exact h
  | http10 =>
    cases b with
    | nil =>
      have hb : bodyStep .http10 [] = .ok (none, .http10, []) := rfl
      rw [hb]
      exact ⟨fun c => rfl, rfl⟩
    | cons x xs =>
      have hb : bodyStep .http10 (x :: xs) =
          .ok (some (.Data ((x :: xs).take 999999999) false false), .http10,
            (x :: xs).drop 999999999) := by
        rw [bodyStep, Http10Reader.call, maybe_extract_at_most, if_neg (by simp)]
      rw [hb]
      refine ⟨?_, ?_, ?_⟩
      · rw [Ne, List.take_eq_nil_iff]
        push_neg
        exact ⟨by omega, by simp⟩
      · rw [List.length_drop]
        simp only [List.length_cons]
        omega
      · intro c
        show ((x :: xs) ++ c, [], AbsOut.incomplete) =
          prependData ((x :: xs).take 999999999)
            ((x :: xs).drop 999999999 ++ c, [], AbsOut.incomplete)
        rw [prependData]
        dsimp only
        rw [← List.append_assoc, List.take_append_drop]

theorem prependEvents_nil (r : Bytes × List Event × AbsOut) : prependEvents [] r = r := by
  obtain ⟨a, b, c⟩ := r
  simp [prependEvents, dataBytes, nonDataEvents]

theorem prependEvents_cons_data (d : Bytes) (u v : Bool) (evs : List Event)
    (r : Bytes × List Event × AbsOut) :
    prependEvents (.Data d u v :: evs) r = prependData d (prependEvents evs r) := by
  simp [prependEvents, prependData, dataBytes, nonDataEvents, eventData, isDataEvent]

theorem dataBytes_eom (hs : List (Bytes × Bytes)) : dataBytes [.EndOfMessage hs] = [] := rfl

theorem nonDataEvents_eom (hs : List (Bytes × Bytes)) :
    nonDataEvents [.EndOfMessage hs] = [.EndOfMessage hs] := rfl

theorem dataBytes_cons_data (d : Bytes) (u v : Bool) (evs : List Event) :
    dataBytes (.Data d u v :: evs) = d ++ dataBytes evs := by
  simp [dataBytes, eventData]

theorem nonDataEvents_cons_data (d : Bytes) (u v : Bool) (evs : List Event) :
    nonDataEvents (.Data d u v :: evs) = nonDataEvents evs := by
  simp [nonDataEvents, isDataEvent]

theorem dataBytes_append (a b : List Event) :
    dataBytes (a ++ b) = dataBytes a ++ dataBytes b := by
  simp [dataBytes]

theorem nonDataEvents_append (a b : List Event) :
    nonDataEvents (a ++ b) = nonDataEvents a ++ nonDataEvents b := by
  simp [nonDataEvents]

theorem drain_rel :
    ∀ (fuel : Nat) (st : BodyState) (b : Bytes), b.length < fuel →
      DrainRel (Rb st) b (drain fuel st b) := by
  intro fuel
  induction fuel with
  | zero => intro st b h; exact absurd h (Nat.not_lt_zero _)
  | succ n ih =>
    intro st b hlen
    have hstep := bodyStep_resRel st b
    cases hc : bodyStep st b with
    | error e =>
      rw [hc] at hstep
      rw [show drain (n + 1) st b = ([], .fail e) from by rw [drain, hc]]
      intro c
      rw [hstep c]
      rfl
    | ok v =>
      obtain ⟨ev, st', b'⟩ := v
      rw [hc] at hstep
      cases ev with
      | none =>
        rw [show drain (n + 1) st b = ([], .more st' b') from by rw [drain, hc]]
        exact ⟨fun c => by rw [hstep.1 c, prependEvents_nil], hstep.2⟩
      | some e =>
        cases e with
        | Data d u v =>
          obtain ⟨hdne, hblen, hFG⟩ := hstep
          have hd : drain (n + 1) st b =
              ((.Data d u v) :: (drain n st' b').1, (drain n st' b').2) := by
            rw [drain, hc]
          have hrel := ih st' b' (by omega)
          rcases hr : drain n st' b' with ⟨evs1, out1⟩
          rw [hr] at hd hrel
          rw [hd]
          cases out1 with
          | more st2 b2 =>
            obtain ⟨hFG1, hstuck1⟩ := hrel
            refine ⟨fun c => ?_, hstuck1⟩
            rw [hFG c, hFG1 c, prependEvents_cons_data]
          | done st2 b2 =>
            intro c
            rw [hFG c, hrel c, dataBytes_cons_data, nonDataEvents_cons_data]
            rfl
          | fail e =>
            intro c
            rw [hFG c, hrel c, dataBytes_cons_data, nonDataEvents_cons_data]
            rfl
        | EndOfMessage hs =>
          rw [show drain (n + 1) st b = ([.EndOfMessage hs], .done st' b') from by
            rw [drain, hc]]
          intro c
          rw [hstep c, dataBytes_eom, nonDataEvents_eom]
        | Request m t ver hs => exact hstep.elim
        | InformationalResponse ver code reason hs => exact hstep.elim
        | Response ver code reason hs => exact hstep.elim

theorem feedBody_rel :
    ∀ (cs : List Bytes) (st : BodyState) (buf : Bytes),
      FeedRel st (buf ++ cs.flatten) (feedBody st buf cs) := by
  intro cs
  induction cs with
  | nil =>
    intro st buf
    have hrel := drain_rel (buf.length + 1) st buf (by omega)
    rcases hd : drain (buf.length + 1) st buf with ⟨evs, out⟩
    rw [hd] at hrel
    cases out with
    | more st2 b2 =>
      rw [show feedBody st buf [] = (evs, .more st2 b2) from by rw [feedBody, hd]]
      show Rb st (buf ++ List.flatten []) = (dataBytes evs, nonDataEvents evs, .incomplete)
      have h1 := hrel.1 []
      rw [List.append_nil, List.append_nil] at h1
      rw [hrel.2] at h1
      rw [show List.flatten ([] : List Bytes) = [] from rfl, List.append_nil, h1]
      simp [prependEvents]
    | done st2 b2 =>
      rw [show feedBody st buf [] = (evs, .done b2) from by rw [feedBody, hd]]
      show Rb st (buf ++ List.flatten []) = (dataBytes evs, nonDataEvents evs, .complete b2)
      have h1 := hrel []
      rw [List.append_nil, List.append_nil] at h1
      rw [show List.flatten ([] : List Bytes) = [] from rfl, List.append_nil]
      exact h1
    | fail e =>
      rw [show feedBody st buf [] = (evs, .fail e) from by rw [feedBody, hd]]
      show Rb st (buf ++ List.flatten []) = (dataBytes evs, nonDataEvents evs, .failed e)
      have h1 := hrel []
      rw [List.append_nil] at h1
      rw [show List.flatten ([] : List Bytes) = [] from rfl, List.append_nil]
      exact h1
  | cons c cs ih =>
    intro st buf
    have hrel := drain_rel (buf.length + 1) st buf (by omega)
    rcases hd : drain (buf.length + 1) st buf with ⟨evs, out⟩
    rw [hd] at hrel
    cases out with
    | more st2 b2 =>
      have hfeed : feedBody st buf (c :: cs) =
          (evs ++ (feedBody st2 (b2 ++ c) cs).1, (feedBody st2 (b2 ++ c) cs).2) := by
        rw [feedBody, hd]
      have ih2 := ih st2 (b2 ++ c)
      rcases hf : feedBody st2 (b2 ++ c) cs with ⟨evs2, out2⟩
      rw [hf] at hfeed ih2
      rw [hfeed]
      have key : Rb st (buf ++ (c :: cs).flatten) =
          prependEvents evs (Rb st2 ((b2 ++ c) ++ cs.flatten)) := by
        rw [show (c :: cs).flatten = c ++ cs.flatten from by simp,
          List.append_assoc b2 c cs.flatten]
        exact hrel.1 (c ++ cs.flatten)
      cases out2 with
      | more st3 b3 =>
        show Rb st (buf ++ (c :: cs).flatten) =
          (dataBytes (evs ++ evs2), nonDataEvents (evs ++ evs2), .incomplete)
        rw [key, ih2, dataBytes_append, nonDataEvents_append]
        rfl
      | done l =>
        show Rb st (buf ++ (c :: cs).flatten) =
          (dataBytes (evs ++ evs2), nonDataEvents (evs ++ evs2), .complete l)
        rw [key, ih2, dataBytes_append, nonDataEvents_append]
        rfl
      | fail e =>
        show Rb st (buf ++ (c :: cs).flatten) =
          (dataBytes (evs ++ evs2), nonDataEvents (evs ++ evs2), .failed e)
        rw [key, ih2, dataBytes_append, nonDataEvents_append]
        rfl
    | done st2 b2 =>
      rw [show feedBody st buf (c :: cs) = (evs, .done (b2 ++ (c :: cs).flatten)) from by
        rw [feedBody, hd]]
      show Rb st (buf ++ (c :: cs).flatten) =
        (dataBytes evs, nonDataEvents evs, .complete (b2 ++ (c :: cs).flatten))
      have h1 := hrel ((c :: cs).flatten)
      exact h1
    | fail e =>
      rw [show feedBody st buf (c :: cs) = (evs, .fail e) from by rw [feedBody, hd]]
      show Rb st (buf ++ (c :: cs).flatten) =
        (dataBytes evs, nonDataEvents evs, .failed e)
      exact hrel ((c :: cs).flatten)

theorem absRun_eq_Rb (st : BodyState) (cs : List Bytes) :
    absRun st cs = Rb st cs.flatten := by
  have hrel := feedBody_rel cs st []
  rcases hf : feedBody st [] cs with ⟨evs, out⟩
  rw [hf] at hrel
  rw [List.nil_append] at hrel
  rw [absRun, hf]
  cases out with
  | more st2 b2 =>
    rw [hrel]
    rfl
  | done l =>
    rw [hrel]
    rfl
  | fail e =>
    rw [hrel]
    rfl

theorem runHead_eq_headDen (H : List Bytes → Except ProtocolError Event) :
    ∀ (cs : List Bytes) (buf : Bytes),
      runHead H buf cs = headDen H (buf ++ cs.flatten) := by
  intro cs
  induction cs with
  | nil =>
    intro buf
    rw [show List.flatten ([] : List Bytes) = [] from rfl, List.append_nil]
    rw [runHead, headDen]
  | cons c cs ih =>
    intro buf
    cases hm : maybe_extract_lines buf with
    | some p =>
      obtain ⟨ls, r⟩ := p
      rw [show runHead H buf (c :: cs) =
          (match H ls with
          | .ok ev => .got ev (r ++ (c :: cs).flatten)
          | .error e => .fail e) from by rw [runHead, hm]]
      rw [headDen, extractLines_append ((c :: cs).flatten) hm]
    | none =>
      rw [show runHead H buf (c :: cs) = runHead H (buf ++ c) cs from by rw [runHead, hm]]
      rw [ih (buf ++ c), List.append_assoc]
      rw [show (c :: cs).flatten = c ++ cs.flatten from by simp]

/-- C1 (amended): feeding a byte sequence to a reader in any chunking
produces the same events up to the granularity of `Data` events: for the head
readers (which emit no `Data`) the resulting head event, error, or need for
more data — and the unconsumed remainder — are identical for any two
partitions of the same bytes; for every body reader the concatenation of the
`Data` payloads, the non-`Data` events (`EndOfMessage` with its trailers, or
the error), and the outcome are identical for any two partitions. In
particular a request line or header block fed one byte at a time parses to
the same head event as a single-shot feed. -/
theorem chunking_invariance :
    (∀ (H : List Bytes → Except ProtocolError Event) (cs cs' : List Bytes),
      cs.flatten = cs'.flatten → runHead H [] cs = runHead H [] cs') ∧
    (∀ (st : BodyState) (cs cs' : List Bytes),
      cs.flatten = cs'.flatten → absRun st cs = absRun st cs') := by
  constructor
  · intro H cs cs' h
    rw [runHead_eq_headDen, runHead_eq_headDen, List.nil_append, List.nil_append, h]
  · intro st cs cs' h
    rw [absRun_eq_Rb, absRun_eq_Rb, h]

/-- C1 witness: a request head fed one byte at a time parses identically to
the single-shot feed, and a chunked body fed one byte at a time has the same
abstract run as the single-shot feed. -/
theorem chunking_invariance_witness :
    (List.flatten (List.map (fun b => [b])
        ([71, 69, 84, 32, 47, 32, 72, 84, 84, 80, 47, 49, 46, 49, 13, 10, 13, 10] : Bytes)) =
      List.flatten [[71, 69, 84, 32, 47, 32, 72, 84, 84, 80, 47, 49, 46, 49, 13, 10, 13, 10]] ∧
      runHead readRequestHead [] (List.map (fun b => [b])
        ([71, 69, 84, 32, 47, 32, 72, 84, 84, 80, 47, 49, 46, 49, 13, 10, 13, 10] : Bytes)) =
        runHead readRequestHead []
          [[71, 69, 84, 32, 47, 32, 72, 84, 84, 80, 47, 49, 46, 49, 13, 10, 13, 10]]) ∧
    (List.flatten (List.map (fun b => [b])
        ([53, 13, 10, 104, 101, 108, 108, 111, 13, 10, 48, 13, 10, 13, 10] : Bytes)) =
      List.flatten [[53, 13, 10, 104, 101, 108, 108, 111, 13, 10, 48, 13, 10, 13, 10]] ∧
      absRun (.chunked ChunkedReader.init) (List.map (fun b => [b])
        ([53, 13, 10, 104, 101, 108, 108, 111, 13, 10, 48, 13, 10, 13, 10] : Bytes)) =
        absRun (.chunked ChunkedReader.init)
          [[53, 13, 10, 104, 101, 108, 108, 111, 13, 10, 48, 13, 10, 13, 10]]) :=
  ⟨⟨by decide, chunking_invariance.1 readRequestHead _ _ (by decide)⟩,
    ⟨by decide, chunking_invariance.2 (.chunked ChunkedReader.init) _ _ (by decide)⟩⟩

/-- C1 counterexample: the literal event sequences are not chunking
invariant: the HTTP/1.0 reader fed "a" then "b" emits two `Data` events,
while fed "ab" in one append it emits a single `Data` event — the same bytes,
different event sequences. -/
theorem chunking_changes_data_granularity :
    feedBody .http10 [] [[97], [98]] =
      ([.Data [97] false false, .Data [98] false false], .more .http10 []) ∧
    feedBody .http10 [] [[97, 98]] =
      ([.Data [97, 98] false false], .more .http10 []) := by decide

/-- C5: `ContentLengthReader` behaviour: with `remaining = 0` every call
returns `EndOfMessage` with empty headers; with `remaining > 0` a call
returns `None` on an empty buffer, else a `Data` event with at most
`remaining` bytes, decrementing `remaining` by the returned length; and
feeding exactly `n` body bytes, in any chunking, yields `Data` events
totaling exactly the `n` fed bytes followed by `EndOfMessage`. -/
theorem content_length_call_spec :
    (∀ (s : ContentLengthReader) (buf : Bytes), s.remaining = 0 →
      ContentLengthReader.call s buf = .ok (some (.EndOfMessage []), s, buf)) ∧
    (∀ (s : ContentLengthReader) (buf : Bytes), 0 < s.remaining → buf = [] →
      ContentLengthReader.call s buf = .ok (none, s, buf)) ∧
    (∀ (s : ContentLengthReader) (buf : Bytes), 0 < s.remaining → buf ≠ [] →
      ContentLengthReader.call s buf =
        .ok (some (.Data (buf.take s.remaining) false false),
          ⟨s.length, s.remaining - (buf.take s.remaining).length⟩,
          buf.drop s.remaining) ∧
      (buf.take s.remaining).length ≤ s.remaining) ∧
    (∀ (n : Nat) (cs : List Bytes), cs.flatten.length = n →
      absRun (.contentLength (ContentLengthReader.init n)) cs =
        (cs.flatten, [.EndOfMessage []], .complete [])) := by
  refine ⟨?_, ?_, ?_, ?_⟩
  · intro s buf hr
    rw [ContentLengthReader.call, if_pos hr]
  · intro s buf hr hbe
    subst hbe
    rw [ContentLengthReader.call, if_neg (by omega)]
    rfl
  · intro s buf hr hbe
    have hne : ¬(buf.isEmpty = true) := by
      cases buf with
      | nil => exact absurd rfl hbe
      | cons y ys => simp
    constructor
    · rw [ContentLengthReader.call, if_neg (by omega), maybe_extract_at_most, if_neg hne]
    · rw [List.length_take]
      omega
  · intro n cs hn
    rw [absRun_eq_Rb]
    show contentLengthR (ContentLengthReader.init n) cs.flatten = _
    rw [ContentLengthReader.init, contentLengthR]
    by_cases hz : n = 0
    · subst hz
      rw [if_pos rfl]
      have : cs.flatten = [] := List.length_eq_zero.mp hn
      rw [this]
    · rw [if_neg (by show ¬(n = 0); exact hz), if_neg (by show ¬(cs.flatten.length < n); omega)]
      rw [show (⟨n, n⟩ : ContentLengthReader).remaining = n from rfl,
        List.take_of_length_le (by omega), List.drop_eq_nil_of_le (by omega)]

/-- C5 witness: instantiating at `n = 3` fed as chunks "a" + "bc", and the
per-call clauses at concrete states. -/
theorem content_length_call_spec_witness :
    ContentLengthReader.call ⟨7, 0⟩ [1, 2] = .ok (some (.EndOfMessage []), ⟨7, 0⟩, [1, 2]) ∧
    ContentLengthReader.call ⟨7, 4⟩ [] = .ok (none, ⟨7, 4⟩, []) ∧
    ContentLengthReader.call ⟨7, 4⟩ [1, 2] =
      .ok (some (.Data [1, 2] false false), ⟨7, 2⟩, []) ∧
    absRun (.contentLength (ContentLengthReader.init 3)) [[97], [98, 99]] =
      ([97, 98, 99], [.EndOfMessage []], .complete []) := by
  refine ⟨?_, ?_, ?_, ?_⟩
  · exact content_length_call_spec.1 ⟨7, 0⟩ [1, 2] rfl
  · exact content_length_call_spec.2.1 ⟨7, 4⟩ [] (by decide) rfl
  · have h := (content_length_call_spec.2.2.1 ⟨7, 4⟩ [1, 2] (by decide) (by decide)).1
    simpa using h
  · have h := content_length_call_spec.2.2.2 3 [[97], [98, 99]] (by decide)
    simpa using h
